import Mathlib

/-!
Verification development for the `linkedin-signal-monitor` repository.

JavaScript strings are modelled as `List Char` (`JStr`).  Empty strings play
the role of JavaScript falsy string values (`''`, `null`, `undefined` collapse
to `[]` where the source only ever tests truthiness).  Timestamps are modelled
as `Int` milliseconds; a `Date` that JavaScript would consider invalid (or an
absent field) is `Option.none`.
-/

namespace SignalMonitor

/-- JavaScript strings, modelled as lists of characters. -/
abbrev JStr := List Char

/-- JavaScript `a || b` on strings: `a` when truthy (non-empty), else `b`. -/
def jsOr (a b : JStr) : JStr := if a = [] then b else a

/-- JavaScript whitespace characters matched by `\s` (ASCII subset relevant
to the source's inputs): space, tab, newline, carriage return, vertical tab
and form feed. -/
def isSpaceJS (c : Char) : Bool :=
  c = ' ' || c = '\t' || c = '\n' || c = '\r' || c = '\x0b' || c = '\x0c'

/-- Characters matched by the regex class `\w`: ASCII letters, digits and
underscore. -/
def isWordChar (c : Char) : Bool :=
  ('a' ≤ c && c ≤ 'z') || ('A' ≤ c && c ≤ 'Z') || ('0' ≤ c && c ≤ '9') || c = '_'

/-- One step of the regex replacement `/\s+/g → ' '`: collapse every maximal
run of whitespace into a single space.  The boolean flag records whether the
previous character belonged to a whitespace run. -/
def collapseWsAux : Bool → JStr → JStr
  | _, [] => []
  | prevSpace, c :: cs =>
    if isSpaceJS c then
      if prevSpace then collapseWsAux true cs
      else ' ' :: collapseWsAux true cs
    else c :: collapseWsAux false cs

/-- The regex replacement `/\s+/g → ' '` from `_normalizeText`. -/
def collapseWs (l : JStr) : JStr := collapseWsAux false l

/-- JavaScript `String.prototype.trim`: strip leading and trailing whitespace. -/
def trimJS (l : JStr) : JStr :=
  ((l.dropWhile isSpaceJS).reverse.dropWhile isSpaceJS).reverse

/-- JavaScript `String.prototype.includes`: does `s` contain `pat` as a
contiguous substring?  Implemented as a scan over all tail positions. -/
def containsSub (s pat : JStr) : Bool :=
  s.tails.any (fun t => pat.isPrefixOf t)

namespace Matching

/-- `MatchingService._normalizeText`: lowercase, replace every character that
is neither `\w` nor `\s` by a space, collapse whitespace runs, trim. -/
def normalizeText (text : JStr) : JStr :=
  trimJS (collapseWs ((text.map Char.toLower).map
    (fun c => if isWordChar c || isSpaceJS c then c else ' ')))

/-- `MatchingService.findMatches`: guard against falsy/empty inputs, then keep
every keyword whose normalization is contained in the normalized post text,
in the caller-supplied keyword order, returning the original keyword. -/
def findMatches (postText : JStr) (keywords : List JStr) : List JStr :=
  if postText = [] || keywords = [] then []
  else
    let normalizedText := normalizeText postText
    keywords.filter (fun keyword => containsSub normalizedText (normalizeText keyword))

/-- Index of the last occurrence of `t` in `l`, or `none`
(JavaScript `String.prototype.lastIndexOf` before the `-1` encoding). -/
def lastIndexOfCharNat : JStr → Char → Option Nat
  | [], _ => none
  | c :: rest, t =>
    match lastIndexOfCharNat rest t with
    | some i => some (i + 1)
    | none => if c = t then some 0 else none

/-- JavaScript `String.prototype.lastIndexOf` for a single character:
the index of the last occurrence, or `-1`. -/
def lastIndexOfChar (l : JStr) (t : Char) : Int :=
  match lastIndexOfCharNat l t with
  | some i => (i : Int)
  | none => -1

/-- The ellipsis marker `'...'` appended by `extractSnippet`. -/
def ellipsis : JStr := ['.', '.', '.']

/-- `MatchingService.extractSnippet`: return short text unchanged; otherwise
cut at `maxLength`, back up to the last space when its index is positive, and
append the ellipsis marker. -/
def extractSnippet (postText : JStr) (maxLength : Nat) : JStr :=
  if postText = [] then []
  else if postText.length ≤ maxLength then postText
  else
    let snippet := postText.take maxLength
    let lastSpace := lastIndexOfChar snippet ' '
    if lastSpace > 0 then snippet.take lastSpace.toNat ++ ellipsis
    else snippet ++ ellipsis

end Matching

/-- A normalized post as produced by the result normalizer and consumed by
matching: text, canonical URL, parsed timestamp (milliseconds, `none` when the
raw date was absent or unparsable). -/
structure SPost where
  text : JStr
  post_url : JStr
  post_date : Option Int
deriving DecidableEq

/-- A signal event row: `(profile_id, keyword, post_url, post_date, snippet)`. -/
structure SignalEvent where
  profile_id : Nat
  keyword : JStr
  post_url : JStr
  post_date : Option Int
  snippet : JStr
deriving DecidableEq

namespace Matching

/-- `MatchingService.processPost`: one event per matched keyword, all sharing
the snippet extracted from the post text. -/
def processPost (post : SPost) (keywords : List JStr) (profileId : Nat) :
    List SignalEvent :=
  let matched := findMatches post.text keywords
  if matched = [] then []
  else
    let snippet := extractSnippet post.text 250
    matched.map (fun keyword =>
      { profile_id := profileId, keyword := keyword, post_url := post.post_url,
        post_date := post.post_date, snippet := snippet })

end Matching

namespace Scheduler

/-- The scheduler-visible state of a monitored profile: the two fields the
scan cycle mutates, plus the data it reads. -/
structure ProfileState where
  id : Nat
  plan : JStr
  keywords : List JStr
  lastPostTimestamp : Option Int
  nextScanAt : Int
deriving DecidableEq

/-- `SCAN_INTERVALS[plan] || SCAN_INTERVALS.free` (hours). -/
def scanIntervalHours (plan : JStr) : Nat :=
  if plan = "free".toList then 48
  else if plan = "basic".toList then 24
  else if plan = "business".toList then 24
  else 48

/-- Milliseconds added by `nextScanAt.setHours(getHours() + h)`. -/
def hoursToMs (h : Nat) : Int := (h : Int) * 3600000

/-- `_updateNextScan`: advance `next_scan_at` by the plan interval, leaving
`last_post_timestamp` untouched. -/
def updateNextScan (now : Int) (st : ProfileState) : ProfileState :=
  { st with nextScanAt := now + hoursToMs (scanIntervalHours (jsOr st.plan "free".toList)) }

/-- `_updateProfileAfterScan`: advance `next_scan_at` and, when the latest
post date is non-null, overwrite `last_post_timestamp` with it. -/
def updateProfileAfterScan (now : Int) (st : ProfileState) (latestPostDate : Option Int) :
    ProfileState :=
  let st₂ := updateNextScan now st
  match latestPostDate with
  | none => st₂
  | some d => { st₂ with lastPostTimestamp := some d }

/-- `_getLatestPostDate`: maximum of the non-null post dates, or `none`. -/
def getLatestPostDate (posts : List SPost) : Option Int :=
  match posts.filterMap (fun p => p.post_date) with
  | [] => none
  | d :: ds => some (ds.foldl max d)

/-- The `posts.filter(...)` of `_processScanResult`: a post passes when it has
a parsable date which is strictly later than the stored timestamp; with no
stored timestamp every dated post passes. -/
def newPostsOf (lastKnownTimestamp : Option Int) (posts : List SPost) : List SPost :=
  posts.filter (fun post =>
    match post.post_date with
    | none => false
    | some d =>
      match lastKnownTimestamp with
      | none => true
      | some t => decide (t < d))

/-- What one `_processScanResult` call produces: the posts forwarded to
keyword matching, the signal events collected from them, and the profile row
after the update. -/
structure ScanOutcome where
  forwarded : List SPost
  events : List SignalEvent
  profileAfter : ProfileState
deriving DecidableEq

/-- `SchedulerService._processScanResult` for one matched profile: empty
results and empty new-post sets only advance the next scan time; otherwise
the new posts run through keyword matching and the profile is updated with
the latest post date. -/
def processScanResult (now : Int) (st : ProfileState) (posts : List SPost) : ScanOutcome :=
  if posts = [] then
    { forwarded := [], events := [], profileAfter := updateNextScan now st }
  else
    let latestPostDate := getLatestPostDate posts
    let newPosts := newPostsOf st.lastPostTimestamp posts
    if newPosts = [] then
      { forwarded := [], events := [], profileAfter := updateNextScan now st }
    else
      let events := newPosts.flatMap (fun post => Matching.processPost post st.keywords st.id)
      { forwarded := newPosts, events := events,
        profileAfter := updateProfileAfterScan now st latestPostDate }

/-- The `(profile_id, post_url, keyword)` uniqueness key of the events table. -/
def eventKey (e : SignalEvent) : Nat × JStr × JStr := (e.profile_id, e.post_url, e.keyword)

/-- Does the store already hold a row with this key? -/
def hasKey (store : List SignalEvent) (k : Nat × JStr × JStr) : Bool :=
  store.any (fun x => decide (eventKey x = k))

/-- Does a batch insert against the events table violate the schema
(embedded in `src/src/routes/campaigns.js`)?  A violation arises from a row
with a null `post_date` (the `post_date TIMESTAMP NOT NULL` column), from a
row whose `(profile_id, post_url, keyword)` key is already stored, or from
two rows of the batch sharing a key (the unique index `idx_events_unique`
applies within one multi-row statement too). -/
def batchViolation (store : List SignalEvent) (events : List SignalEvent) : Bool :=
  events.any (fun e => decide (e.post_date = none)) ||
  events.any (fun e => hasKey store (eventKey e)) ||
  !(decide (events.Pairwise (fun a b => eventKey a ≠ eventKey b)))

/-- One `_insertEvents` call: a single multi-row insert, atomic in the
database, so a violating batch stores nothing — `_insertEvents` catches the
resulting error (logging duplicates as skipped, other failures as errors)
and returns, raising nothing to the caller; a clean batch stores all its
rows. -/
def insertEventsBatch (store : List SignalEvent) (events : List SignalEvent) :
    List SignalEvent :=
  if batchViolation store events then store else store ++ events

/-- A sequence of event-persist operations applied to a store. -/
def runInsertBatches (store : List SignalEvent) (batches : List (List SignalEvent)) :
    List SignalEvent :=
  batches.foldl insertEventsBatch store

/-- Number of stored rows carrying a given key. -/
def countKey (store : List SignalEvent) (k : Nat × JStr × JStr) : Nat :=
  (store.filter (fun x => decide (eventKey x = k))).length

/-- The store invariant: at most one row per `(profileId, postUrl, keyword)`
key, i.e. all stored keys pairwise distinct. -/
def keyDistinct (store : List SignalEvent) : Prop :=
  store.Pairwise (fun a b => eventKey a ≠ eventKey b)

end Scheduler

namespace Apify

/-- Terminal and non-terminal statuses reported by a run-status poll. -/
inductive RunStatus where
  | running
  | succeeded
  | failed
  | aborted
  | timedOut
deriving DecidableEq

/-- Errors that can surface from the start→poll→fetch sequence: a transport
failure, the five-minute poll deadline, or a terminal run state other than
`SUCCEEDED`. -/
inductive GError where
  | network
  | pollDeadline
  | runNotSucceeded (s : RunStatus)
deriving DecidableEq

/-- One raw dataset item of the posts actor, with the provider fields the
source reads.  Absent string fields are `[]`; the date fallback chain
(`postedAt?.date || postedAt?.timestamp || date || ...`) is modelled by a
single already-parsed `postedAt` value, `none` standing for a chain whose
first present value `_parseDate` could not parse (or an all-absent chain). -/
structure RawPost where
  query_targetUrl : JStr
  author_linkedinUrl : JStr
  content : JStr
  text : JStr
  description : JStr
  body : JStr
  linkedinUrl : JStr
  url : JStr
  postUrl : JStr
  link : JStr
  shareUrl : JStr
  postedAt : Option Int
deriving DecidableEq

/-- `post.query?.targetUrl || post.author?.linkedinUrl?.split('?')[0] || null`
from `_normalizeResults`; `[]` plays `null`. -/
def postProfileUrl (post : RawPost) : JStr :=
  jsOr post.query_targetUrl (post.author_linkedinUrl.takeWhile (fun c => c ≠ '?'))

/-- Append a post to the group of key `u` (the groups object preserves key
insertion order and `push` appends). -/
def appendToGroup : List (JStr × List RawPost) → JStr → RawPost → List (JStr × List RawPost)
  | [], _, _ => []
  | (k, ps) :: rest, u, p =>
    if k = u then (k, ps ++ [p]) :: rest else (k, ps) :: appendToGroup rest u p

/-- The grouping loop of `_normalizeResults`: posts without an extractable
profile URL are dropped, the rest are grouped by that URL in first-seen
order. -/
def groupPostsByProfile (rawResults : List RawPost) : List (JStr × List RawPost) :=
  rawResults.foldl (fun acc post =>
    let u := postProfileUrl post
    if u = [] then acc
    else if acc.any (fun kv => decide (kv.1 = u)) then appendToGroup acc u post
    else acc ++ [(u, [post])]) []

/-- `url.replace(/\/$/, '')`: strip one trailing slash. -/
def stripTrailingSlashOne (l : JStr) : JStr :=
  if l.getLast? = some '/' then l.dropLast else l

/-- `url.replace(/\?.*$/, '')`: drop everything from the first `?` on. -/
def stripQuery (l : JStr) : JStr := l.takeWhile (fun c => c ≠ '?')

/-- The optional `www.` group of the scheme regex. -/
def dropWww (l : JStr) : JStr :=
  if "www.".toList.isPrefixOf l then l.drop 4 else l

/-- Try the scheme regex `https?:\/\/(www\.)?` at the head of `l`; on a match
return what follows the matched portion. -/
def schemeMatchAt (l : JStr) : Option JStr :=
  if "https://".toList.isPrefixOf l then some (dropWww (l.drop 8))
  else if "http://".toList.isPrefixOf l then some (dropWww (l.drop 7))
  else none

/-- `url.replace(/https?:\/\/(www\.)?/, '')`: delete the first (leftmost)
occurrence of the scheme pattern, keeping everything before and after it. -/
def stripScheme : JStr → JStr
  | [] => []
  | c :: cs =>
    match schemeMatchAt (c :: cs) with
    | some rest => rest
    | none => c :: stripScheme cs

/-- `ApifyService._normalizeLinkedInUrl`: lowercase, strip one trailing slash,
strip the query string, strip the scheme and `www.`. -/
def normalizeLinkedInUrl (url : JStr) : JStr :=
  stripScheme (stripQuery (stripTrailingSlashOne (url.map Char.toLower)))

/-- `ApifyService._findMatchingProfileUrl`: the first requested URL whose
normalization equals the raw profile URL's normalization, returned in its
original form. -/
def findMatchingProfileUrl (profileUrl : JStr) (requestedUrls : List JStr) : Option JStr :=
  requestedUrls.find? (fun requestedUrl =>
    decide (normalizeLinkedInUrl profileUrl = normalizeLinkedInUrl requestedUrl))

/-- `ApifyService._extractPosts` on a grouped post array: keep the first 3
items, resolve the text and URL fallback chains, and drop posts missing
either. -/
def extractPosts (posts : List RawPost) : List SPost :=
  (posts.take 3).filterMap (fun post =>
    let text := jsOr post.content (jsOr post.text (jsOr post.description post.body))
    let pUrl := jsOr post.linkedinUrl (jsOr post.url (jsOr post.postUrl (jsOr post.link post.shareUrl)))
    if text ≠ [] ∧ pUrl ≠ [] then some { text := text, post_url := pUrl, post_date := post.postedAt }
    else none)

/-- One profile's normalized scan result. -/
structure ProfileResult where
  linkedin_url : JStr
  posts : List SPost
deriving DecidableEq

/-- `ApifyService._normalizeResults` (flat-posts provider shape): group the
raw posts by profile URL, match each group back to a requested URL, and drop
unmatched groups with a warning. -/
def normalizeResults (rawResults : List RawPost) (requestedUrls : List JStr) :
    List ProfileResult :=
  (groupPostsByProfile rawResults).filterMap (fun kv =>
    match findMatchingProfileUrl kv.1 requestedUrls with
    | none => none
    | some matchedUrl => some { linkedin_url := matchedUrl, posts := extractPosts kv.2 })

/-- The externally observable behavior of the gateway during one attempt:
what starting the run yields, the successive status responses of a run, the
dataset a run points at, and what fetching a dataset yields. -/
structure GatewayAttempt where
  startRun : Except GError Nat
  statuses : Nat → List RunStatus
  datasetOf : Nat → Nat
  fetchDataset : Nat → Except GError (List RawPost)

/-- `ApifyService._pollRunStatus`: walk the successive status responses;
`SUCCEEDED` returns, any failing terminal status raises, and an exhausted
trace stands for the five-minute deadline elapsing over `RUNNING` responses. -/
def pollRunStatus : List RunStatus → Except GError Unit
  | [] => Except.error GError.pollDeadline
  | s :: rest =>
    match s with
    | RunStatus.succeeded => Except.ok ()
    | RunStatus.failed => Except.error (GError.runNotSucceeded RunStatus.failed)
    | RunStatus.aborted => Except.error (GError.runNotSucceeded RunStatus.aborted)
    | RunStatus.timedOut => Except.error (GError.runNotSucceeded RunStatus.timedOut)
    | RunStatus.running => pollRunStatus rest

/-- One attempt of the body of `_scanWithRetry`: start the actor run, poll it
to a terminal state, fetch the dataset, normalize. -/
def scanAttempt (g : GatewayAttempt) (profileUrls : List JStr) :
    Except GError (List ProfileResult) := do
  let runId ← g.startRun
  let _ ← pollRunStatus (g.statuses runId)
  let results ← g.fetchDataset (g.datasetOf runId)
  pure (normalizeResults results profileUrls)

/-- `MAX_RETRIES` from the source. -/
def MAX_RETRIES : Nat := 1

/-- `ApifyService._scanWithRetry`: run one attempt; on any error, while the
retry budget lasts, sleep 5000 ms and recurse with `retryCount + 1`, else
propagate the error.  The second component records the backoff sleeps
performed, in order. -/
def scanWithRetry (g : Nat → GatewayAttempt) (profileUrls : List JStr)
    (retryCount : Nat) : Except GError (List ProfileResult) × List Nat :=
  match scanAttempt (g retryCount) profileUrls with
  | Except.ok v => (Except.ok v, [])
  | Except.error e =>
    if retryCount < MAX_RETRIES then
      let r := scanWithRetry g profileUrls (retryCount + 1)
      (r.1, 5000 :: r.2)
    else (Except.error e, [])
termination_by MAX_RETRIES + 1 - retryCount
decreasing_by
  simp only [MAX_RETRIES] at *
  omega

/-- `ApifyService.scanProfiles`: empty input short-circuits to `[]`, otherwise
the whole start→poll→fetch sequence runs under `_scanWithRetry` starting at
retry count 0, and an exhausted retry propagates the error. -/
def scanProfiles (g : Nat → GatewayAttempt) (profileUrls : List JStr) :
    Except GError (List ProfileResult) × List Nat :=
  if profileUrls = [] then (Except.ok [], [])
  else scanWithRetry g profileUrls 0

end Apify

namespace Engagers

/-- A raw engagement record after the scrape stage: profile URL, reaction
label (or `Comment`), optional comment text.  `none` plays `null`. -/
structure Engager where
  linkedin_url : JStr
  reaction_type : JStr
  comment_text : Option JStr
deriving DecidableEq

/-- The dedup key of `_deduplicateEngagers`:
`url.split('?')[0].replace(/\/$/, '').toLowerCase().trim()`. -/
def normalizeEngagerUrl (url : JStr) : JStr :=
  trimJS ((Apify.stripTrailingSlashOne (url.takeWhile (fun c => c ≠ '?'))).map Char.toLower)

/-- `reaction_type || 'Unknown'`. -/
def reactionOrUnknown (rt : JStr) : JStr := jsOr rt "Unknown".toList

/-- Truthiness of a nullable comment text: present and non-empty. -/
def ctTruthy : Option JStr → Bool
  | none => false
  | some s => decide (s ≠ [])

/-- The `', '` separator of the reaction-label set. -/
def commaSp : JStr := [',', ' ']

/-- JavaScript `String.prototype.split` on a non-empty separator
`s₀ :: srest`: cut at each leftmost, non-overlapping occurrence.  `acc` holds
the current piece reversed; the fuel, initialized to the string length, only
makes the recursion structural and is never exhausted before the string is. -/
def splitStrAux (s₀ : Char) (srest : JStr) : Nat → JStr → JStr → List JStr
  | _, [], acc => [acc.reverse]
  | 0, l, acc => [acc.reverse ++ l]
  | fuel + 1, c :: rest, acc =>
    if (s₀ :: srest).isPrefixOf (c :: rest) then
      acc.reverse :: splitStrAux s₀ srest fuel (rest.drop srest.length) []
    else splitStrAux s₀ srest fuel rest (c :: acc)

/-- JavaScript `String.prototype.split(sep)`; the source only splits on
`', '`, so the empty-separator case (which JavaScript handles differently) is
mapped to the identity. -/
def splitStr (s : JStr) (sep : JStr) : List JStr :=
  match sep with
  | [] => [s]
  | s₀ :: srest => splitStrAux s₀ srest s.length s []

/-- In-place value replacement in the dedup map, preserving entry order
(JavaScript `Map.prototype.set` on an existing key). -/
def updateAssoc (k : JStr) (v : Engager) : List (JStr × Engager) → List (JStr × Engager)
  | [] => []
  | (k₂, v₂) :: rest =>
    if k₂ = k then (k₂, v) :: rest else (k₂, v₂) :: updateAssoc k v rest

/-- `Map.prototype.get` on the dedup map. -/
def lookupAssoc (seen : List (JStr × Engager)) (k : JStr) : Option Engager :=
  match seen.find? (fun kv => decide (kv.1 = k)) with
  | none => none
  | some kv => some kv.2

/-- One loop iteration of `_deduplicateEngagers`: skip URL-less records; seed
the map on a fresh key (defaulting a falsy reaction label to `Unknown`); on a
seen key, union the reaction label into the comma-joined set and fill in the
comment text only when none is present yet. -/
def dedupStep (seen : List (JStr × Engager)) (engager : Engager) : List (JStr × Engager) :=
  if engager.linkedin_url = [] then seen
  else
    let normalizedUrl := normalizeEngagerUrl engager.linkedin_url
    match lookupAssoc seen normalizedUrl with
    | none =>
      seen ++ [(normalizedUrl,
        { engager with reaction_type := reactionOrUnknown engager.reaction_type })]
    | some existing =>
      let existingTypes := splitStr (reactionOrUnknown existing.reaction_type) commaSp
      let newType := reactionOrUnknown engager.reaction_type
      let existing₂ :=
        if newType ∈ existingTypes then existing
        else { existing with
                reaction_type := List.intercalate commaSp (existingTypes ++ [newType]) }
      let existing₃ :=
        if ctTruthy engager.comment_text && !ctTruthy existing.comment_text then
          { existing₂ with comment_text := engager.comment_text }
        else existing₂
      updateAssoc normalizedUrl existing₃ seen

/-- `EngagersService._deduplicateEngagers`: fold the records through the dedup
map and return its values in insertion order. -/
def deduplicateEngagers (engagers : List Engager) : List Engager :=
  (engagers.foldl dedupStep []).map (fun kv => kv.2)

/-- `EngagersService._chunkArray` for a positive chunk size `n + 1`; the
fuel, initialized to the list length, only makes the recursion structural and
is never exhausted before the list is. -/
def chunkArrayPos (n : Nat) : Nat → List α → List (List α)
  | _, [] => []
  | 0, l => [l]
  | fuel + 1, a :: l => (a :: l.take n) :: chunkArrayPos n fuel (l.drop n)

/-- `EngagersService._chunkArray`: split into consecutive chunks of
`chunkSize`.  The source only calls it with sizes 10 and 500; size 0 (an
infinite loop in the source) is mapped to `[]`. -/
def chunkArray (array : List α) (chunkSize : Nat) : List (List α) :=
  match chunkSize with
  | 0 => []
  | n + 1 => chunkArrayPos n array.length array

/-- A profile's enrichment output (`apify.enrichProfile` in the enrichment
service draft). -/
structure ProfileData where
  fullName : JStr
  jobTitle : JStr
  location : JStr
  linkedinUrl : JStr
  connectionsCount : Int
  followerCount : Int
  companyName : JStr
  companyLinkedinUrl : JStr
  companyId : Option Int
  needsCompanyEnrichment : Bool
deriving DecidableEq

/-- The `/company/` literal of the slug test. -/
def companySeg : JStr := "/company/".toList

/-- Working on the reversed URL: it starts with one or more digits followed
immediately by the reversal of `/company/`. -/
def numericCompanyEndRev (r : JStr) : Bool :=
  decide (r.takeWhile Char.isDigit ≠ []) &&
    companySeg.reverse.isPrefixOf (r.drop (r.takeWhile Char.isDigit).length)

/-- The regex test `companyUrl.match(/\/company\/\d+\/?$/)`: after stripping
one optional trailing slash, the URL ends in `/company/` followed by one or
more digits. -/
def numericCompanyEnd (url : JStr) : Bool :=
  numericCompanyEndRev (Apify.stripTrailingSlashOne url).reverse

/-- `hasValidCompanyUrl` from `enrichProfile`: non-empty, contains
`/company/`, and does not end in a bare numeric company id. -/
def hasValidCompanyUrl (companyUrl : JStr) : Bool :=
  decide (companyUrl ≠ []) && containsSub companyUrl companySeg && !(numericCompanyEnd companyUrl)

/-- A position entry of the raw profile (experience / currentPosition). -/
structure RawPosition where
  position : JStr
  companyName : JStr
  companyLinkedinUrl : JStr
  companyId : Option Int
deriving DecidableEq

/-- The raw profile's location object. -/
structure RawLocation where
  parsed_text : JStr
  linkedinText : JStr
deriving DecidableEq

/-- A raw profile item returned by the profile-scraper actor. -/
structure RawProfile where
  firstName : JStr
  lastName : JStr
  headline : JStr
  experience : List RawPosition
  currentPosition : List RawPosition
  location : Option RawLocation
  linkedinUrl : JStr
  connectionsCount : Int
  followerCount : Int
deriving DecidableEq

/-- The job-title/company extraction of `enrichProfile`: the first experience
entry wins, `currentPosition` is the fallback, the headline the last resort. -/
def roleFieldsOf (profile : RawProfile) : JStr × JStr × JStr × Option Int :=
  match profile.experience with
  | currentRole :: _ =>
    (jsOr currentRole.position profile.headline, currentRole.companyName,
      currentRole.companyLinkedinUrl, currentRole.companyId)
  | [] =>
    match profile.currentPosition with
    | currentPos :: _ =>
      (profile.headline, currentPos.companyName, currentPos.companyLinkedinUrl,
        currentPos.companyId)
    | [] => (profile.headline, [], [], none)

/-- The successful body of `enrichProfile`: assemble the enriched profile and
set `needsCompanyEnrichment` from the slug test. -/
def buildProfileData (profile : RawProfile) (profileUrl : JStr) : ProfileData :=
  let role := roleFieldsOf profile
  let location :=
    match profile.location with
    | none => []
    | some loc => jsOr loc.parsed_text loc.linkedinText
  { fullName := jsOr (trimJS (profile.firstName ++ [' '] ++ profile.lastName)) "Unknown".toList,
    jobTitle := role.1,
    location := location,
    linkedinUrl := jsOr profile.linkedinUrl profileUrl,
    connectionsCount := profile.connectionsCount,
    followerCount := profile.followerCount,
    companyName := role.2.1,
    companyLinkedinUrl := role.2.2.1,
    companyId := role.2.2.2,
    needsCompanyEnrichment := hasValidCompanyUrl role.2.2.1 }

/-- The catch-branch fallback of `enrichProfile`. -/
def fallbackProfileData (profileUrl : JStr) : ProfileData :=
  { fullName := "Unknown".toList, jobTitle := [], location := [], linkedinUrl := profileUrl,
    connectionsCount := 0, followerCount := 0, companyName := [], companyLinkedinUrl := [],
    companyId := none, needsCompanyEnrichment := false }

/-- `apify.enrichProfile`: the actor call either fails (transport/run error)
or returns items; an error or an empty item list falls into the catch branch,
which returns the fallback record instead of raising. -/
def enrichProfile (fetched : Except Unit (List RawProfile)) (profileUrl : JStr) : ProfileData :=
  match fetched with
  | Except.error _ => fallbackProfileData profileUrl
  | Except.ok [] => fallbackProfileData profileUrl
  | Except.ok (profile :: _) => buildProfileData profile profileUrl

/-- Company enrichment output. -/
structure CompanyData where
  industry : JStr
  employeeSize : JStr
  companyLocation : JStr
  companyName : JStr
  companyLinkedinUrl : JStr
deriving DecidableEq

/-- One settled per-engager enrichment promise as `scanPostEngagers` sees it. -/
structure EnrichAttempt where
  success : Bool
  engager : Engager
  profileData : Option ProfileData
deriving DecidableEq

/-- The per-engager try/catch of `scanPostEngagers`.  `apify.enrichProfile`
catches its own errors and returns a fallback record, so in this pipeline the
call never throws and the catch branch (`success: false`) is unreachable. -/
def enrichOneEngager (pfetch : JStr → Except Unit (List RawProfile)) (engager : Engager) :
    EnrichAttempt :=
  { success := true, engager := engager,
    profileData := some (enrichProfile (pfetch engager.linkedin_url) engager.linkedin_url) }

/-- Phase 2 of `scanPostEngagers`: batches of 10, all-settled join, keep only
fulfilled successful results (all of them, given `enrichProfile` is total). -/
def profileEnrichmentPhase (pfetch : JStr → Except Unit (List RawProfile))
    (engagersToEnrich : List Engager) : List EnrichAttempt :=
  (chunkArray engagersToEnrich 10).flatMap (fun batch =>
    (batch.map (enrichOneEngager pfetch)).filter (fun r => r.success))

/-- One iteration of `_extractUniqueCompanies`: add the company URL to the
set when the profile is flagged and the URL is truthy. -/
def extractUniqueStep (acc : List JStr) (entry : EnrichAttempt) : List JStr :=
  match entry.profileData with
  | none => acc
  | some pd =>
    if pd.needsCompanyEnrichment && decide (pd.companyLinkedinUrl ≠ []) then
      if pd.companyLinkedinUrl ∈ acc then acc else acc ++ [pd.companyLinkedinUrl]
    else acc

/-- `EngagersService._extractUniqueCompanies`: the distinct company URLs of
profiles flagged `needsCompanyEnrichment` with a truthy company URL, in
first-seen order. -/
def extractUniqueCompanies (profileEnrichedData : List EnrichAttempt) : List JStr :=
  profileEnrichedData.foldl extractUniqueStep []

/-- Phase 3 of `scanPostEngagers`: enrich every selected company URL in
batches of 10 and build the URL → company-data map.  `apify.enrichCompany`
catches its own errors and returns a fallback record, so every selected URL
lands in the map; `companyLookup` is its (total) outcome. -/
def companyPhase (companyLookup : JStr → CompanyData) (uniqueCompanies : List JStr) :
    List (JStr × CompanyData) :=
  (chunkArray uniqueCompanies 10).flatMap (fun batch =>
    batch.map (fun companyUrl => (companyUrl, companyLookup companyUrl)))

/-- `companyDataMap.get`. -/
def lookupCompany (m : List (JStr × CompanyData)) (k : JStr) : Option CompanyData :=
  match m.find? (fun kv => decide (kv.1 = k)) with
  | none => none
  | some kv => some kv.2

/-- The `companyData` default of the combine phase (empty strings). -/
def defaultCompanyData : CompanyData :=
  { industry := [], employeeSize := [], companyLocation := [], companyName := [],
    companyLinkedinUrl := [] }

/-- A string field of an optional profile record (`profileData?.f || ''`). -/
def optField (pd : Option ProfileData) (f : ProfileData → JStr) : JStr :=
  match pd with
  | none => []
  | some p => f p

/-- `engager.comment_text || null`: an empty comment collapses to null. -/
def jsOrNull (o : Option JStr) : Option JStr :=
  match o with
  | none => none
  | some s => if s = [] then none else some s

/-- The final combined record built by phase 4 of `scanPostEngagers`. -/
structure CRecord where
  name : JStr
  job_title : JStr
  location : JStr
  linkedin_url : JStr
  total_connections : Int
  follower_count : Int
  company_name : JStr
  industry : JStr
  employee_size : JStr
  company_location : JStr
  company_profile_url : JStr
  reaction_type : JStr
  comment_text : Option JStr
deriving DecidableEq

/-- Phase 4 of `scanPostEngagers`: attach company data when the profile was
flagged for company enrichment and its URL is in the map, else the empty
defaults, and assemble the flat record. -/
def combineRecord (companyDataMap : List (JStr × CompanyData)) (entry : EnrichAttempt) :
    CRecord :=
  let pd := entry.profileData
  let companyData :=
    match pd with
    | some p =>
      if p.needsCompanyEnrichment && decide (p.companyLinkedinUrl ≠ []) then
        match lookupCompany companyDataMap p.companyLinkedinUrl with
        | some c => c
        | none => defaultCompanyData
      else defaultCompanyData
    | none => defaultCompanyData
  { name := jsOr (optField pd (fun p => p.fullName)) "Unknown".toList,
    job_title := optField pd (fun p => p.jobTitle),
    location := optField pd (fun p => p.location),
    linkedin_url := jsOr (optField pd (fun p => p.linkedinUrl)) entry.engager.linkedin_url,
    total_connections := (match pd with | none => 0 | some p => p.connectionsCount),
    follower_count := (match pd with | none => 0 | some p => p.followerCount),
    company_name := optField pd (fun p => p.companyName),
    industry := companyData.industry,
    employee_size := companyData.employeeSize,
    company_location := companyData.companyLocation,
    company_profile_url := optField pd (fun p => p.companyLinkedinUrl),
    reaction_type := entry.engager.reaction_type,
    comment_text := jsOrNull entry.engager.comment_text }

/-- `EngagersService._escapeCsvValue`: falsy → empty; values containing a
comma, double quote or newline are wrapped in double quotes with internal
quotes doubled; everything else passes through. -/
def escapeCsvValue (value : JStr) : JStr :=
  if value = [] then []
  else if (',' ∈ value) ∨ ('"' ∈ value) ∨ ('\n' ∈ value) then
    '"' :: (value.flatMap (fun c => if c = '"' then ['"', '"'] else [c])) ++ ['"']
  else value

/-- The fixed CSV header cells of `_generateCSV`. -/
def csvHeaders : List JStr :=
  ["Name", "Job Title", "Location", "Industry", "LinkedIn Profile URL",
   "Total Connections", "Follower Count", "Company Name", "Employee Size",
   "Company Location", "Company Profile URL", "Reaction Type"].map String.toList

/-- One record's CSV cells in the fixed column order of `_generateCSV`.  The
two URL columns and the two numeric columns bypass `_escapeCsvValue` in the
source. -/
def csvRow (e : CRecord) : List JStr :=
  [escapeCsvValue e.name,
   escapeCsvValue e.job_title,
   escapeCsvValue e.location,
   escapeCsvValue e.industry,
   e.linkedin_url,
   (toString e.total_connections).toList,
   (toString e.follower_count).toList,
   escapeCsvValue e.company_name,
   escapeCsvValue e.employee_size,
   escapeCsvValue e.company_location,
   e.company_profile_url,
   escapeCsvValue e.reaction_type]

/-- `EngagersService._generateCSV`: the joined header line followed by one
joined line per record, all joined with newlines. -/
def generateCSV (engagers : List CRecord) : JStr :=
  List.intercalate ['\n']
    ((List.intercalate [','] csvHeaders) :: engagers.map (fun e => List.intercalate [','] (csvRow e)))

/-- What the enrichment phases return to the caller. -/
structure EnrichOutput where
  engagers : List CRecord
  uniqueProfiles : Nat
  profilesEnriched : Nat
  companiesEnriched : Nat
  csv : JStr
deriving DecidableEq

/-- Phases 2–4 of `scanPostEngagers`, from the deduplicated engager list on:
slice to the limit, enrich profiles in batches, selectively enrich companies,
combine, render the CSV. -/
def scanFromUnique (pfetch : JStr → Except Unit (List RawProfile))
    (companyLookup : JStr → CompanyData) (uniqueEngagers : List Engager)
    (limitPerType : Nat) : EnrichOutput :=
  let engagersToEnrich := uniqueEngagers.take limitPerType
  let profileEnrichedData := profileEnrichmentPhase pfetch engagersToEnrich
  let uniqueCompanies := extractUniqueCompanies profileEnrichedData
  let companyDataMap := companyPhase companyLookup uniqueCompanies
  let fullyEnrichedEngagers := profileEnrichedData.map (combineRecord companyDataMap)
  { engagers := fullyEnrichedEngagers,
    uniqueProfiles := uniqueEngagers.length,
    profilesEnriched := fullyEnrichedEngagers.length,
    companiesEnriched := companyDataMap.length,
    csv := generateCSV fullyEnrichedEngagers }

/-- `EngagersService.scanPostEngagers`: a failure of the initial scrape phase
propagates (the route marks the scan Failed); once the raw engagers are in,
the remaining phases always complete. -/
def scanPostEngagers (scrape : Except Unit (List Engager))
    (pfetch : JStr → Except Unit (List RawProfile))
    (companyLookup : JStr → CompanyData) (limitPerType : Nat) :
    Except Unit EnrichOutput :=
  match scrape with
  | Except.error e => Except.error e
  | Except.ok allEngagers =>
    Except.ok (scanFromUnique pfetch companyLookup (deduplicateEngagers allEngagers) limitPerType)

end Engagers

namespace Apify

/-- Modelled from the spec's wording for comparison with the source's
`_normalizeLinkedInUrl`: "normalize both sides (lowercase, strip
scheme/`www.`, strip query string, strip trailing slash)", applying the
operations in that listed order.  The source instead strips the trailing
slash before the query string. -/
def specNormalizeLinkedInUrl (url : JStr) : JStr :=
  stripTrailingSlashOne (stripQuery (stripScheme (url.map Char.toLower)))

end Apify

namespace Engagers

/-- Modelled from the spec's wording for comparison with the source's dedup
key: "normalize each engager's URL (strip query, trailing slash, lowercase)
as the merge key", applying exactly the listed operations.  The source's
`_deduplicateEngagers` additionally applies a final `.trim()`. -/
def specNormalizeEngagerUrl (url : JStr) : JStr :=
  (Apify.stripTrailingSlashOne (url.takeWhile (fun c => c ≠ '?'))).map Char.toLower

end Engagers

section Examples

open Scheduler Apify Engagers

/-- A post whose raw date was unparsable: text and URL present, date null. -/
def pNoDate : SPost :=
  { text := "We just raised a round".toList, post_url := "https://li.com/posts/1".toList,
    post_date := none }

/-- A post dated `D-2` (two days before a reference point `D = 200`). -/
def pOlder : SPost :=
  { text := "old news".toList, post_url := "https://li.com/posts/2".toList,
    post_date := some 0 }

/-- A post dated `D-1`. -/
def pNewer : SPost :=
  { text := "funding announcement".toList, post_url := "https://li.com/posts/3".toList,
    post_date := some 100 }

/-- A profile last seen at `D-2`. -/
def stSeen : Scheduler.ProfileState :=
  { id := 1, plan := "free".toList, keywords := ["funding".toList],
    lastPostTimestamp := some 0, nextScanAt := 0 }

/-- A profile that has never been scanned. -/
def stFirst : Scheduler.ProfileState :=
  { id := 2, plan := "basic".toList, keywords := ["funding".toList],
    lastPostTimestamp := none, nextScanAt := 0 }

/-- A concrete signal event. -/
def evA : SignalEvent :=
  { profile_id := 1, keyword := "funding".toList, post_url := "https://li.com/posts/3".toList,
    post_date := some 100, snippet := "funding announcement".toList }

/-- A second signal event with a different key. -/
def evB : SignalEvent :=
  { profile_id := 1, keyword := "hiring".toList, post_url := "https://li.com/posts/3".toList,
    post_date := some 100, snippet := "hiring announcement".toList }

/-- A signal event whose post date is null — rejected by the events table's
`NOT NULL` column. -/
def evNullDate : SignalEvent :=
  { profile_id := 1, keyword := "funding".toList, post_url := "https://li.com/posts/7".toList,
    post_date := none, snippet := "funding announcement".toList }

/-- A raw dataset item for the gateway scenario. -/
def rawPostA : Apify.RawPost :=
  { query_targetUrl := "https://linkedin.com/in/jane".toList, author_linkedinUrl := [],
    content := "We are hiring".toList, text := [], description := [], body := [],
    linkedinUrl := "https://linkedin.com/posts/9".toList, url := [], postUrl := [],
    link := [], shareUrl := [], postedAt := some 5 }

/-- A gateway whose first attempt polls to `FAILED` and whose retry polls to
`SUCCEEDED` and then serves one raw post. -/
def gwRetry : Nat → Apify.GatewayAttempt := fun attempt =>
  { startRun := Except.ok 7,
    statuses := fun _ =>
      if attempt = 0 then [Apify.RunStatus.running, Apify.RunStatus.failed]
      else [Apify.RunStatus.succeeded],
    datasetOf := fun _ => 3,
    fetchDataset := fun _ => Except.ok [rawPostA] }

/-- An engager who liked the post. -/
def engLike : Engagers.Engager :=
  { linkedin_url := "https://x.com/in/sam".toList, reaction_type := "Like".toList,
    comment_text := none }

/-- The same person commenting, with a URL differing only by case and a
trailing slash. -/
def engComment : Engagers.Engager :=
  { linkedin_url := "https://x.com/in/Sam/".toList, reaction_type := "Comment".toList,
    comment_text := some "Nice!".toList }

/-- The same person's URL carrying a stray trailing space — the scrape stage
keeps the raw URL, its filter only checks trimmed truthiness. -/
def engSamSpace : Engagers.Engager :=
  { linkedin_url := "https://x.com/in/sam ".toList, reaction_type := "Insightful".toList,
    comment_text := none }

/-- A combined record whose profile URL contains a comma. -/
def recCommaUrl : Engagers.CRecord :=
  { name := "N".toList, job_title := [], location := [], linkedin_url := "a,b".toList,
    total_connections := 0, follower_count := 0, company_name := [], industry := [],
    employee_size := [], company_location := [], company_profile_url := [],
    reaction_type := "Like".toList, comment_text := none }

/-- An enrichment entry flagged for company enrichment. -/
def entryFlagged : Engagers.EnrichAttempt :=
  { success := true, engager := engLike,
    profileData := some
      { fullName := "Sam".toList, jobTitle := [], location := [],
        linkedinUrl := "https://x.com/in/sam".toList, connectionsCount := 0,
        followerCount := 0, companyName := "Acme".toList,
        companyLinkedinUrl := "https://www.linkedin.com/company/acme-inc/".toList,
        companyId := none, needsCompanyEnrichment := true } }

/-- An upstream profile fetch that fails for every URL. -/
def pfetchFail : JStr → Except Unit (List Engagers.RawProfile) :=
  fun _ => Except.error ()

/-- A company lookup returning only fallback data. -/
def clFallback : JStr → Engagers.CompanyData :=
  fun _ => Engagers.defaultCompanyData

/-- An empty raw profile. -/
def rpEmpty : Engagers.RawProfile :=
  { firstName := [], lastName := [], headline := [], experience := [],
    currentPosition := [], location := none, linkedinUrl := [],
    connectionsCount := 0, followerCount := 0 }

/-- Post text of 251 characters whose only space sits at index 0; the source
then takes the hard-cut branch although a space precedes the limit. -/
def txtSpaceAtZero : JStr := ' ' :: List.replicate 250 'a'

/-- Post text of 251 characters with a space at index 2 and none later. -/
def txtSpaceAtTwo : JStr := 'a' :: 'b' :: ' ' :: List.replicate 248 'c'

end Examples

section Lemmas

/-- Boolean prefix test agrees with the prefix relation on `Char` lists. -/
theorem prefixOf_eq_true {l₁ l₂ : JStr} : l₁.isPrefixOf l₂ = true ↔ l₁ <+: l₂ := by
  simp

/-- The substring test agrees with the contiguous-sublist relation. -/
theorem containsSub_eq_true {s pat : JStr} : containsSub s pat = true ↔ pat <:+: s := by
  unfold containsSub
  rw [List.any_eq_true, List.infix_iff_prefix_suffix]
  constructor
  · rintro ⟨t, ht, hp⟩
    exact ⟨t, prefixOf_eq_true.mp hp, (List.mem_tails t s).mp ht⟩
  · rintro ⟨t, hp, ht⟩
    exact ⟨t, (List.mem_tails t s).mpr ht, prefixOf_eq_true.mpr hp⟩

/-- The empty pattern is contained in every string. -/
theorem containsSub_nil_pat (s : JStr) : containsSub s [] = true :=
  containsSub_eq_true.mpr ⟨[], s, by simp⟩

/-- `x || 'Unknown'` is never falsy. -/
theorem reactionOrUnknown_ne_nil (rt : JStr) : Engagers.reactionOrUnknown rt ≠ [] := by
  unfold Engagers.reactionOrUnknown jsOr
  split
  · decide
  · assumption

/-- Defaulting a reaction label twice is the same as defaulting it once. -/
theorem reactionOrUnknown_idem (rt : JStr) :
    Engagers.reactionOrUnknown (Engagers.reactionOrUnknown rt) = Engagers.reactionOrUnknown rt := by
  unfold Engagers.reactionOrUnknown jsOr
  split
  · decide
  · simp_all

/-- Joining a two-element list places the separator in the middle. -/
theorem intercalate_pair (s a b : JStr) : List.intercalate s [a, b] = a ++ s ++ b := by
  simp [List.intercalate, List.intersperse]

/-- `takeWhile` swallows a first block that satisfies the predicate. -/
theorem takeWhile_append_all {p : Char → Bool} {l₁ : JStr} (l₂ : JStr)
    (h : ∀ a ∈ l₁, p a = true) :
    List.takeWhile p (l₁ ++ l₂) = l₁ ++ List.takeWhile p l₂ := by
  rw [List.takeWhile_append, if_pos]
  rw [List.takeWhile_eq_self_iff.mpr h]

/-- `takeWhile` stops at a leading element that fails the predicate. -/
theorem takeWhile_cons_neg {p : Char → Bool} {x : Char} (l : JStr) (h : p x = false) :
    List.takeWhile p (x :: l) = [] := by
  simp [List.takeWhile_cons, h]

/-- A clean batch insert preserves key distinctness; a violating one stores
nothing. -/
theorem keyDistinct_insertEventsBatch {s : List SignalEvent} (es : List SignalEvent)
    (h : Scheduler.keyDistinct s) :
    Scheduler.keyDistinct (Scheduler.insertEventsBatch s es) := by
  unfold Scheduler.insertEventsBatch
  split
  · exact h
  · next hviol =>
    have hpair : es.Pairwise (fun a b => Scheduler.eventKey a ≠ Scheduler.eventKey b) := by
      by_contra hP
      apply hviol
      unfold Scheduler.batchViolation
      rw [decide_eq_false hP]
      simp
    have hkeys : ∀ b ∈ es, Scheduler.hasKey s (Scheduler.eventKey b) = false := by
      intro b hb
      cases hx : Scheduler.hasKey s (Scheduler.eventKey b) with
      | false => rfl
      | true =>
        exfalso
        apply hviol
        unfold Scheduler.batchViolation
        have h2 : es.any (fun e => Scheduler.hasKey s (Scheduler.eventKey e)) = true :=
          List.any_eq_true.mpr ⟨b, hb, hx⟩
        rw [h2]
        simp
    rw [Scheduler.keyDistinct, List.pairwise_append]
    refine ⟨h, hpair, ?_⟩
    intro a ha b hb hEq
    have hks := hkeys b hb
    unfold Scheduler.hasKey at hks
    have h3 : s.any (fun x => decide (Scheduler.eventKey x = Scheduler.eventKey b)) = true :=
      List.any_eq_true.mpr ⟨a, ha, by simp [hEq]⟩
    rw [h3] at hks
    exact Bool.noConfusion hks

/-- Any sequence of batch inserts preserves key distinctness. -/
theorem keyDistinct_runInsertBatches (batches : List (List SignalEvent)) :
    ∀ s, Scheduler.keyDistinct s →
      Scheduler.keyDistinct (Scheduler.runInsertBatches s batches) := by
  induction batches with
  | nil => intro s h; exact h
  | cons es rest ih =>
    intro s h
    exact ih _ (keyDistinct_insertEventsBatch es h)

/-- The head surviving `dropWhile` fails the predicate. -/
theorem dropWhile_head_false {p : Char → Bool} :
    ∀ {l x t}, List.dropWhile p l = x :: t → p x = false := by
  intro l
  induction l with
  | nil => intro x t h; exact absurd h (by simp)
  | cons c rest ih =>
    intro x t h
    rw [List.dropWhile_cons] at h
    split at h
    · exact ih h
    · next hc =>
      injection h with h₁ _
      rw [← h₁]
      exact Bool.eq_false_iff.mpr hc

/-- Core of the bare-numeric-id regex: the reversal of
`pre ++ "/company/" ++ seg` starts with digits followed by the reversed
`/company/` marker exactly when the segment is all digits. -/
theorem numericCompanyEndRev_core (pre seg : JStr) (hseg : seg ≠ [])
    (hslash : '/' ∉ seg) :
    Engagers.numericCompanyEndRev ((pre ++ Engagers.companySeg ++ seg).reverse)
      = seg.all Char.isDigit := by
  have hrevCS : Engagers.companySeg.reverse = '/' :: "ynapmoc/".toList := by decide
  rw [List.reverse_append, List.reverse_append]
  by_cases hd : seg.all Char.isDigit = true
  · rw [hd]
    have hall : ∀ a ∈ seg.reverse, Char.isDigit a = true := fun a ha =>
      (List.all_eq_true.mp hd) a (List.mem_reverse.mp ha)
    have htw : List.takeWhile Char.isDigit
        (seg.reverse ++ (Engagers.companySeg.reverse ++ pre.reverse))
          = seg.reverse := by
      rw [takeWhile_append_all _ hall, hrevCS, List.cons_append,
        takeWhile_cons_neg _ (by decide), List.append_nil]
    unfold Engagers.numericCompanyEndRev
    rw [htw, List.drop_left]
    have h1 : decide (seg.reverse ≠ []) = true := by simp [hseg]
    have h2 : Engagers.companySeg.reverse.isPrefixOf
        (Engagers.companySeg.reverse ++ pre.reverse) = true :=
      prefixOf_eq_true.mpr ⟨pre.reverse, rfl⟩
    rw [h1, h2]
    rfl
  · rw [Bool.eq_false_iff.mpr hd]
    have hsplit := List.takeWhile_append_dropWhile Char.isDigit seg.reverse
    cases ht : List.dropWhile Char.isDigit seg.reverse with
    | nil =>
      exfalso
      have hall : ∀ x ∈ seg.reverse, Char.isDigit x = true :=
        List.dropWhile_eq_nil_iff.mp ht
      exact hd (List.all_eq_true.mpr fun x hx => hall x (List.mem_reverse.mpr hx))
    | cons x t₂ =>
      have hx : Char.isDigit x = false := dropWhile_head_false ht
      have hxseg : x ∈ seg := by
        have hxrev : x ∈ seg.reverse := by
          rw [← hsplit]
          exact List.mem_append.mpr (Or.inr (by rw [ht]; exact List.mem_cons_self _ _))
        exact List.mem_reverse.mp hxrev
      have hxslash : x ≠ '/' := fun hEq => hslash (hEq ▸ hxseg)
      have hsegrev : seg.reverse = List.takeWhile Char.isDigit seg.reverse ++ (x :: t₂) := by
        rw [← ht, hsplit]
      have halld : ∀ a ∈ List.takeWhile Char.isDigit seg.reverse, Char.isDigit a = true :=
        fun a ha => List.mem_takeWhile_imp ha
      unfold Engagers.numericCompanyEndRev
      rw [hsegrev, List.append_assoc, takeWhile_append_all _ halld, List.cons_append,
        takeWhile_cons_neg _ hx, List.append_nil, List.drop_left]
      have h2 : Engagers.companySeg.reverse.isPrefixOf
          (x :: (t₂ ++ (Engagers.companySeg.reverse ++ pre.reverse))) = false := by
        apply Bool.eq_false_iff.mpr
        intro hpf
        obtain ⟨t₃, ht₃⟩ := prefixOf_eq_true.mp hpf
        rw [hrevCS, List.cons_append, List.cons_append] at ht₃
        injection ht₃ with h₁ _
        exact hxslash h₁.symm
      rw [h2, Bool.and_false]

/-- The regex test on `pre ++ "/company/" ++ seg` (no trailing slash). -/
theorem numericCompanyEnd_slug (pre seg : JStr) (hseg : seg ≠ [])
    (hslash : '/' ∉ seg) :
    Engagers.numericCompanyEnd (pre ++ Engagers.companySeg ++ seg)
      = seg.all Char.isDigit := by
  unfold Engagers.numericCompanyEnd
  have hne : ¬ (pre ++ Engagers.companySeg ++ seg).getLast? = some '/' := by
    rw [List.getLast?_append, List.getLast?_eq_getLast seg hseg]
    intro hEq
    have hmem := List.getLast_mem hseg
    have hl : seg.getLast hseg = '/' := by
      have := hEq
      simp [Option.or] at this
      exact this
    rw [hl] at hmem
    exact hslash hmem
  have hstrip : Apify.stripTrailingSlashOne (pre ++ Engagers.companySeg ++ seg)
      = pre ++ Engagers.companySeg ++ seg := by
    unfold Apify.stripTrailingSlashOne
    rw [if_neg hne]
  rw [hstrip]
  exact numericCompanyEndRev_core pre seg hseg hslash

/-- The regex test on `pre ++ "/company/" ++ seg ++ "/"`. -/
theorem numericCompanyEnd_slug_slash (pre seg : JStr) (hseg : seg ≠ [])
    (hslash : '/' ∉ seg) :
    Engagers.numericCompanyEnd (pre ++ Engagers.companySeg ++ seg ++ ['/'])
      = seg.all Char.isDigit := by
  unfold Engagers.numericCompanyEnd
  have hstrip : Apify.stripTrailingSlashOne (pre ++ Engagers.companySeg ++ seg ++ ['/'])
      = pre ++ Engagers.companySeg ++ seg := by
    unfold Apify.stripTrailingSlashOne
    rw [if_pos (List.getLast?_concat _), List.dropLast_concat]
  rw [hstrip]
  exact numericCompanyEndRev_core pre seg hseg hslash

/-- Every URL the company-collection fold emits comes from an entry flagged
for company enrichment. -/
theorem extractUnique_sound :
    ∀ (pds : List Engagers.EnrichAttempt) (acc : List JStr) (u : JStr),
      u ∈ pds.foldl Engagers.extractUniqueStep acc →
      u ∈ acc ∨ ∃ entry ∈ pds, ∃ pd, entry.profileData = some pd ∧
        pd.needsCompanyEnrichment = true ∧ pd.companyLinkedinUrl = u := by
  intro pds
  induction pds with
  | nil => intro acc u h; exact Or.inl h
  | cons entry rest ih =>
    intro acc u h
    rw [List.foldl_cons] at h
    rcases ih _ u h with hacc | ⟨e₂, he₂, pd, hp1, hp2, hp3⟩
    · unfold Engagers.extractUniqueStep at hacc
      cases hpd : entry.profileData with
      | none =>
        simp only [hpd] at hacc
        exact Or.inl hacc
      | some pd =>
        simp only [hpd] at hacc
        by_cases hflag : (pd.needsCompanyEnrichment && decide (pd.companyLinkedinUrl ≠ [])) = true
        · rw [if_pos hflag] at hacc
          by_cases hmem0 : pd.companyLinkedinUrl ∈ acc
          · rw [if_pos hmem0] at hacc
            exact Or.inl hacc
          · rw [if_neg hmem0] at hacc
            rcases List.mem_append.mp hacc with hmem | hmem
            · exact Or.inl hmem
            · rw [List.mem_singleton] at hmem
              subst hmem
              have hneeds : pd.needsCompanyEnrichment = true := by
                simp [Bool.and_eq_true] at hflag
                exact hflag.1
              exact Or.inr ⟨entry, List.mem_cons_self _ _, pd, hpd, hneeds, rfl⟩
        · rw [if_neg hflag] at hacc
          exact Or.inl hacc
    · exact Or.inr ⟨e₂, List.mem_cons_of_mem _ he₂, pd, hp1, hp2, hp3⟩

/-- `jsOr` of a value with itself is the value. -/
theorem jsOr_self (a : JStr) : jsOr a a = a := by
  unfold jsOr
  exact ite_self a

/-- Chunking and then mapping batch-wise is mapping over the original list,
whenever the fuel covers the list. -/
theorem chunkArrayPos_flatMap_map {α β : Type} (g : α → β) (n : Nat) :
    ∀ (fuel : Nat) (l : List α), l.length ≤ fuel →
      (Engagers.chunkArrayPos n fuel l).flatMap (fun batch => batch.map g)
        = l.map g := by
  intro fuel
  induction fuel with
  | zero =>
    intro l hl
    have : l = [] := List.length_eq_zero.mp (Nat.le_zero.mp hl)
    rw [this]
    rfl
  | succ fuel ih =>
    intro l hl
    cases l with
    | nil => rfl
    | cons a l₂ =>
      show ((a :: l₂.take n).map g)
          ++ (Engagers.chunkArrayPos n fuel (l₂.drop n)).flatMap (fun batch => batch.map g)
        = (a :: l₂).map g
      rw [ih (l₂.drop n) (by rw [List.length_drop]; simp at hl; omega)]
      rw [← List.map_append, List.cons_append, List.take_append_drop]

/-- Joining a one-element list is the element itself. -/
theorem intercalate_single (s a : JStr) : List.intercalate s [a] = a := by
  simp [List.intercalate, List.intersperse]

/-- The dedup step on an empty map seeds it with the normalized key and the
label-defaulted record. -/
theorem dedupStep_nil (e : Engagers.Engager) (h : e.linkedin_url ≠ []) :
    Engagers.dedupStep [] e
      = [(Engagers.normalizeEngagerUrl e.linkedin_url,
          { e with reaction_type := Engagers.reactionOrUnknown e.reaction_type })] := by
  unfold Engagers.dedupStep Engagers.lookupAssoc
  rw [if_neg h]
  rfl

/-- The dedup step on a key already in the map merges into the stored
record. -/
theorem dedupStep_found (seen : List (JStr × Engagers.Engager)) (e ex : Engagers.Engager)
    (h : e.linkedin_url ≠ [])
    (hfound : Engagers.lookupAssoc seen (Engagers.normalizeEngagerUrl e.linkedin_url)
      = some ex) :
    Engagers.dedupStep seen e
      = Engagers.updateAssoc (Engagers.normalizeEngagerUrl e.linkedin_url)
          (let existingTypes :=
            Engagers.splitStr (Engagers.reactionOrUnknown ex.reaction_type) Engagers.commaSp
          let newType := Engagers.reactionOrUnknown e.reaction_type
          let ex₂ :=
            if newType ∈ existingTypes then ex
            else { ex with
                    reaction_type := List.intercalate Engagers.commaSp (existingTypes ++ [newType]) }
          if Engagers.ctTruthy e.comment_text && !Engagers.ctTruthy ex.comment_text then
            { ex₂ with comment_text := e.comment_text }
          else ex₂) seen := by
  unfold Engagers.dedupStep
  rw [if_neg h]
  simp only [hfound]

/-- The dedup step on a fresh key appends a new entry. -/
theorem dedupStep_fresh (seen : List (JStr × Engagers.Engager)) (e : Engagers.Engager)
    (h : e.linkedin_url ≠ [])
    (hnone : Engagers.lookupAssoc seen (Engagers.normalizeEngagerUrl e.linkedin_url) = none) :
    Engagers.dedupStep seen e
      = seen ++ [(Engagers.normalizeEngagerUrl e.linkedin_url,
          { e with reaction_type := Engagers.reactionOrUnknown e.reaction_type })] := by
  unfold Engagers.dedupStep
  rw [if_neg h]
  simp only [hnone]

/-- In every branch of `_processScanResult`, the posts forwarded to keyword
matching are exactly the `newPosts` filter output. -/
theorem processScanResult_forwarded (now : Int) (st : Scheduler.ProfileState)
    (posts : List SPost) :
    (Scheduler.processScanResult now st posts).forwarded
      = Scheduler.newPostsOf st.lastPostTimestamp posts := by
  by_cases hp : posts = []
  · simp [Scheduler.processScanResult, hp, Scheduler.newPostsOf]
  · by_cases hnp : Scheduler.newPostsOf st.lastPostTimestamp posts = []
    · simp [Scheduler.processScanResult, hp, hnp]
    · simp [Scheduler.processScanResult, hp, hnp]

/-- In every branch of `_processScanResult`, the collected events are those
of the new posts run through keyword matching. -/
theorem processScanResult_events (now : Int) (st : Scheduler.ProfileState)
    (posts : List SPost) :
    (Scheduler.processScanResult now st posts).events
      = (Scheduler.newPostsOf st.lastPostTimestamp posts).flatMap
          (fun post => Matching.processPost post st.keywords st.id) := by
  by_cases hp : posts = []
  · simp [Scheduler.processScanResult, hp, Scheduler.newPostsOf]
  · by_cases hnp : Scheduler.newPostsOf st.lastPostTimestamp posts = []
    · simp [Scheduler.processScanResult, hp, hnp]
    · simp [Scheduler.processScanResult, hp, hnp]

/-- When the new-post filter is empty, only the next scan time is advanced. -/
theorem processScanResult_profileAfter_of_empty (now : Int) (st : Scheduler.ProfileState)
    (posts : List SPost) (h : Scheduler.newPostsOf st.lastPostTimestamp posts = []) :
    (Scheduler.processScanResult now st posts).profileAfter
      = Scheduler.updateNextScan now st := by
  by_cases hp : posts = []
  · simp [Scheduler.processScanResult, hp]
  · simp [Scheduler.processScanResult, hp, h]

/-- A `none` last-index means the character does not occur. -/
theorem lastIdxNat_none {l : JStr} {t : Char}
    (h : Matching.lastIndexOfCharNat l t = none) : ∀ i, l.get? i ≠ some t := by
  induction l with
  | nil => intro i; simp
  | cons c rest ih =>
    intro i
    unfold Matching.lastIndexOfCharNat at h
    cases hr : Matching.lastIndexOfCharNat rest t with
    | some k => rw [hr] at h; exact Option.noConfusion h
    | none =>
      rw [hr] at h
      have hc : c ≠ t := by
        intro hct
        rw [if_pos hct] at h
        exact Option.noConfusion h
      cases i with
      | zero => simpa using hc
      | succ i => simpa using ih hr i

/-- A `some j` last-index points at an occurrence after which the character
never occurs again. -/
theorem lastIdxNat_some {l : JStr} {t : Char} :
    ∀ {j : Nat}, Matching.lastIndexOfCharNat l t = some j →
      j < l.length ∧ l.get? j = some t ∧ ∀ i, j < i → l.get? i ≠ some t := by
  induction l with
  | nil => intro j h; simp [Matching.lastIndexOfCharNat] at h
  | cons c rest ih =>
    intro j h
    unfold Matching.lastIndexOfCharNat at h
    cases hr : Matching.lastIndexOfCharNat rest t with
    | some k =>
      rw [hr] at h
      obtain rfl : k + 1 = j := by simpa using h
      obtain ⟨hk1, hk2, hk3⟩ := ih hr
      refine ⟨by simpa using Nat.succ_lt_succ hk1, by simpa using hk2, ?_⟩
      intro i hi
      cases i with
      | zero => omega
      | succ i => simpa using hk3 i (Nat.lt_of_succ_lt_succ hi)
    | none =>
      rw [hr] at h
      by_cases hc : c = t
      · rw [if_pos hc] at h
        obtain rfl : 0 = j := by simpa using h
        refine ⟨by simp, by simpa using hc, ?_⟩
        intro i hi
        cases i with
        | zero => omega
        | succ i => simpa using lastIdxNat_none hr i
      · rw [if_neg hc] at h
        exact Option.noConfusion h

/-- The last-index computation finds the largest index holding the
character. -/
theorem lastIdxNat_complete {l : JStr} {t : Char} :
    ∀ {j : Nat}, l.get? j = some t → (∀ i, i < l.length → j < i → l.get? i ≠ some t) →
      Matching.lastIndexOfCharNat l t = some j := by
  induction l with
  | nil => intro j hj _; simp at hj
  | cons c rest ih =>
    intro j hj hmax
    unfold Matching.lastIndexOfCharNat
    cases j with
    | zero =>
      have hc : c = t := by simpa using hj
      have hrn : Matching.lastIndexOfCharNat rest t = none := by
        cases hr : Matching.lastIndexOfCharNat rest t with
        | none => rfl
        | some k =>
          obtain ⟨hk1, hk2, -⟩ := lastIdxNat_some hr
          have hcontra := hmax (k + 1) (by simpa using Nat.succ_lt_succ hk1) (Nat.succ_pos k)
          exact absurd hk2 (by simpa using hcontra)
      rw [hrn, if_pos hc]
    | succ j =>
      have hj₂ : rest.get? j = some t := by simpa using hj
      have hmax₂ : ∀ i, i < rest.length → j < i → rest.get? i ≠ some t := by
        intro i hi hji
        have := hmax (i + 1) (by simpa using Nat.succ_lt_succ hi) (Nat.succ_lt_succ hji)
        simpa using this
      rw [ih hj₂ hmax₂]

/-- Evaluation of `extractSnippet` on over-long text. -/
theorem extractSnippet_long (text : JStr) (maxLength : Nat) (ht : text ≠ [])
    (h : ¬ text.length ≤ maxLength) :
    Matching.extractSnippet text maxLength =
      (if Matching.lastIndexOfChar (text.take maxLength) ' ' > 0 then
        (text.take maxLength).take (Matching.lastIndexOfChar (text.take maxLength) ' ').toNat
          ++ Matching.ellipsis
      else text.take maxLength ++ Matching.ellipsis) := by
  unfold Matching.extractSnippet
  rw [if_neg ht, if_neg h]

end Lemmas

/-- C1 (amended): the scheduler forwards to keyword matching exactly the
posts carrying a parsable `postDate` strictly greater than the stored
`lastSeenPostTime`; with a null `lastSeenPostTime` (first scan) exactly the
posts carrying a parsable `postDate` are forwarded — a post whose date is
null is never forwarded, even on a first scan; and when the forwarded set is
empty only `nextScanAt` is advanced. -/
theorem c1_amended_forwarding (now : Int) (st : Scheduler.ProfileState)
    (posts : List SPost) :
    (∀ p : SPost, p ∈ (Scheduler.processScanResult now st posts).forwarded ↔
      (p ∈ posts ∧ ∃ d, p.post_date = some d ∧
        ∀ t, st.lastPostTimestamp = some t → t < d)) ∧
    ((Scheduler.processScanResult now st posts).forwarded = [] →
      (Scheduler.processScanResult now st posts).profileAfter
        = Scheduler.updateNextScan now st) := by
  constructor
  · intro p
    rw [processScanResult_forwarded]
    unfold Scheduler.newPostsOf
    rw [List.mem_filter]
    constructor
    · rintro ⟨hp, hpred⟩
      refine ⟨hp, ?_⟩
      cases hd : p.post_date with
      | none => rw [hd] at hpred; simp at hpred
      | some d =>
        refine ⟨d, rfl, ?_⟩
        intro t ht
        rw [hd, ht] at hpred
        simpa using hpred
    · rintro ⟨hp, d, hd, hgt⟩
      refine ⟨hp, ?_⟩
      rw [hd]
      cases hl : st.lastPostTimestamp with
      | none => simp
      | some t => simpa using hgt t hl
  · intro hf
    rw [processScanResult_forwarded] at hf
    exact processScanResult_profileAfter_of_empty now st posts hf

/-- Counterexample for C1 as stated: on a first scan
(`lastSeenPostTime = null`) the claim demands that every post in the result
be forwarded, yet a post whose date is unparsable (null `post_date`) is not
forwarded. -/
theorem c1_counterexample :
    stFirst.lastPostTimestamp = none ∧
    pNoDate ∈ [pNoDate] ∧
    pNoDate ∉ (Scheduler.processScanResult 0 stFirst [pNoDate]).forwarded := by
  refine ⟨rfl, by decide, by decide⟩

/-- Witness for C1 (amended): with `lastSeenPostTime = D-2` and posts dated
`[D-2, D-1]`, only the `D-1` post is forwarded; and a cycle with an empty
forwarded set advances `nextScanAt` only. -/
theorem c1_witness :
    (pNewer ∈ (Scheduler.processScanResult 0 stSeen [pOlder, pNewer]).forwarded ∧
      pOlder ∉ (Scheduler.processScanResult 0 stSeen [pOlder, pNewer]).forwarded) ∧
    (Scheduler.processScanResult 0 stSeen [pOlder]).profileAfter
      = Scheduler.updateNextScan 0 stSeen := by
  refine ⟨⟨?_, ?_⟩, ?_⟩
  · exact ((c1_amended_forwarding 0 stSeen [pOlder, pNewer]).1 pNewer).mpr
      ⟨by decide, 100, rfl, fun t ht => by simp [stSeen] at ht; omega⟩
  · intro hmem
    obtain ⟨-, d, hd, hgt⟩ := ((c1_amended_forwarding 0 stSeen [pOlder, pNewer]).1 pOlder).mp hmem
    simp [pOlder] at hd
    have := hgt 0 (by simp [stSeen])
    omega
  · exact (c1_amended_forwarding 0 stSeen [pOlder]).2 (by decide)

/-- C10: for every non-empty post text, a keyword that normalizes to the
empty string (all punctuation and/or whitespace) is always reported as a
match, because the empty string is contained in every normalized text. -/
theorem c10_empty_normalized_keyword_always_matches (postText : JStr)
    (keywords : List JStr) (keyword : JStr) (hText : postText ≠ [])
    (hk : keyword ∈ keywords) (hnorm : Matching.normalizeText keyword = []) :
    keyword ∈ Matching.findMatches postText keywords := by
  unfold Matching.findMatches
  rw [if_neg]
  · exact List.mem_filter.mpr ⟨hk, by rw [hnorm]; exact containsSub_nil_pat _⟩
  · simp [hText, List.ne_nil_of_mem hk]

/-- Witness for C10: the all-punctuation keyword `'!'` fires on the post
text `hello`, which contains no exclamation mark at all. -/
theorem c10_witness : ['!'] ∈ Matching.findMatches "hello".toList [['!']] :=
  c10_empty_normalized_keyword_always_matches "hello".toList [['!']] ['!']
    (by decide) (by decide) (by decide)

/-- Counterexample for C2 as stated: the events table's
`post_date TIMESTAMP NOT NULL` column rejects a null-dated event, so
inserting the same null-dated event twice stores zero rows, not the exactly
one row the claim promises. -/
theorem c2_counterexample :
    evNullDate.post_date = none ∧
    Scheduler.insertEventsBatch (Scheduler.insertEventsBatch [] [evNullDate]) [evNullDate]
      = [] ∧
    Scheduler.countKey
        (Scheduler.insertEventsBatch (Scheduler.insertEventsBatch [] [evNullDate]) [evNullDate])
        (Scheduler.eventKey evNullDate) ≠ 1 := by
  refine ⟨rfl, by decide, by decide⟩

/-- C2 (amended): across any sequence of batch event-persist operations the
store keeps at most one row per `(profileId, postUrl, keyword)` key; a batch
containing an event whose key is already stored stores nothing and raises no
error to the caller — in particular a single-event re-insert is a silent
no-op; inserting the same event twice yields exactly one stored row provided
the event carries a non-null post date; and every event the scheduler
forwards to the insert has a non-null post date, its posts having passed the
date filter. -/
theorem c2_amended_event_store (batches : List (List SignalEvent))
    (store : List SignalEvent) (e : SignalEvent) (now : Int)
    (st : Scheduler.ProfileState) (posts : List SPost)
    (hdup : Scheduler.hasKey store (Scheduler.eventKey e) = true)
    (hdate : e.post_date ≠ none) :
    Scheduler.keyDistinct (Scheduler.runInsertBatches [] batches) ∧
    Scheduler.insertEventsBatch store [e] = store ∧
    Scheduler.countKey
        (Scheduler.insertEventsBatch (Scheduler.insertEventsBatch [] [e]) [e])
        (Scheduler.eventKey e) = 1 ∧
    (∀ ev ∈ (Scheduler.processScanResult now st posts).events, ev.post_date ≠ none) := by
  refine ⟨keyDistinct_runInsertBatches batches [] List.Pairwise.nil, ?_, ?_, ?_⟩
  · have hb : Scheduler.batchViolation store [e] = true := by
      unfold Scheduler.batchViolation
      have h2 : List.any [e] (fun x => Scheduler.hasKey store (Scheduler.eventKey x)) = true := by
        simp [hdup]
      rw [h2]
      simp
    unfold Scheduler.insertEventsBatch
    rw [if_pos hb]
  · have hclean : Scheduler.batchViolation [] [e] = false := by
      unfold Scheduler.batchViolation
      simp [Scheduler.hasKey, hdate]
    have h1 : Scheduler.insertEventsBatch [] [e] = [e] := by
      unfold Scheduler.insertEventsBatch
      rw [if_neg (by rw [hclean]; exact Bool.false_ne_true)]
      rfl
    have hb2 : Scheduler.batchViolation [e] [e] = true := by
      unfold Scheduler.batchViolation
      have hk : Scheduler.hasKey [e] (Scheduler.eventKey e) = true := by
        simp [Scheduler.hasKey]
      have h2 : List.any [e] (fun x => Scheduler.hasKey [e] (Scheduler.eventKey x)) = true := by
        simp [hk]
      rw [h2]
      simp
    have h2 : Scheduler.insertEventsBatch [e] [e] = [e] := by
      unfold Scheduler.insertEventsBatch
      rw [if_pos hb2]
    rw [h1, h2]
    simp [Scheduler.countKey]
  · intro ev hev
    rw [processScanResult_events] at hev
    rcases List.mem_flatMap.mp hev with ⟨p, hp, hev2⟩
    obtain ⟨-, hpred⟩ := List.mem_filter.mp hp
    obtain ⟨d, hd⟩ : ∃ d, p.post_date = some d := by
      cases hpd : p.post_date with
      | none => rw [hpd] at hpred; simp at hpred
      | some d => exact ⟨d, rfl⟩
    unfold Matching.processPost at hev2
    by_cases hm : Matching.findMatches p.text st.keywords = []
    · simp only [hm] at hev2
      simp at hev2
    · simp only [if_neg hm] at hev2
      rcases List.mem_map.mp hev2 with ⟨kw, -, hkw⟩
      rw [← hkw, hd]
      simp

/-- Witness for C2 (amended) at concrete events: two distinct keys stay
distinct across batches, a re-insert of `evA` into a store holding it is a
no-op, a double insert of the dated `evA` stores exactly one row, and a
concrete scan cycle produces only dated events. -/
theorem c2_witness :
    Scheduler.keyDistinct (Scheduler.runInsertBatches [] [[evA], [evB]]) ∧
    Scheduler.insertEventsBatch [evA] [evA] = [evA] ∧
    Scheduler.countKey
        (Scheduler.insertEventsBatch (Scheduler.insertEventsBatch [] [evA]) [evA])
        (Scheduler.eventKey evA) = 1 ∧
    (∀ ev ∈ (Scheduler.processScanResult 0 stSeen [pOlder, pNewer]).events,
      ev.post_date ≠ none) :=
  c2_amended_event_store [[evA], [evB]] [evA] evA 0 stSeen [pOlder, pNewer]
    (by decide) (by decide)

/-- C3: with a non-empty URL list, the top-level scan runs the
start→poll→fetch attempt and, on any error, retries the whole sequence
exactly once after a 5000 ms backoff: a successful retry returns the
normalized results without raising, a failed retry propagates its error, and
no third attempt ever happens. -/
theorem c3_scan_retries_exactly_once (g : Nat → Apify.GatewayAttempt)
    (profileUrls : List JStr) (h : profileUrls ≠ []) :
    Apify.scanProfiles g profileUrls =
      match Apify.scanAttempt (g 0) profileUrls with
      | Except.ok v => (Except.ok v, [])
      | Except.error _ =>
        match Apify.scanAttempt (g 1) profileUrls with
        | Except.ok v => (Except.ok v, [5000])
        | Except.error e => (Except.error e, [5000]) := by
  unfold Apify.scanProfiles
  rw [if_neg h]
  cases hA0 : Apify.scanAttempt (g 0) profileUrls with
  | ok v => simp [Apify.scanWithRetry, hA0]
  | error e =>
    cases hA1 : Apify.scanAttempt (g 1) profileUrls with
    | ok v => simp [Apify.scanWithRetry, hA0, hA1, Apify.MAX_RETRIES]
    | error e₂ => simp [Apify.scanWithRetry, hA0, hA1, Apify.MAX_RETRIES]

/-- Witness for C3: the spec scenario — run status `FAILED` on the first
attempt and `SUCCEEDED` on the automatic retry — returns the normalized
results without raising, after one 5-second backoff. -/
theorem c3_witness :
    Apify.scanProfiles gwRetry ["https://linkedin.com/in/jane".toList] =
      (Except.ok [{ linkedin_url := "https://linkedin.com/in/jane".toList,
                    posts := [{ text := "We are hiring".toList,
                                post_url := "https://linkedin.com/posts/9".toList,
                                post_date := some 5 }] }],
       [5000]) := by
  rw [c3_scan_retries_exactly_once gwRetry _ (by decide)]
  rfl

/-- C8 (amended): text of at most 250 characters is returned unchanged; the
result is never longer than 250 plus the ellipsis length (253); over-long
text is cut at the last space before the limit, followed by the ellipsis,
whenever a space occurs at a positive index before the limit; and when no
space occurs at a positive index before the limit (even if one sits at index
0) the result is the hard 250-character cut with the ellipsis appended. -/
theorem c8_amended_snippet (text : JStr) :
    (text.length ≤ 250 → Matching.extractSnippet text 250 = text) ∧
    (Matching.extractSnippet text 250).length ≤ 253 ∧
    (∀ j : Nat, 250 < text.length → 0 < j → j < 250 → text.get? j = some ' ' →
      (∀ i, i < 250 → j < i → text.get? i ≠ some ' ') →
      Matching.extractSnippet text 250 = text.take j ++ Matching.ellipsis) ∧
    (250 < text.length → (∀ i, i < 250 → 0 < i → text.get? i ≠ some ' ') →
      Matching.extractSnippet text 250 = text.take 250 ++ Matching.ellipsis) := by
  refine ⟨?_, ?_, ?_, ?_⟩
  · intro h
    unfold Matching.extractSnippet
    by_cases ht : text = []
    · rw [if_pos ht, ht]
    · rw [if_neg ht, if_pos h]
  · by_cases ht : text = []
    · unfold Matching.extractSnippet
      rw [if_pos ht]
      decide
    · by_cases hlen : text.length ≤ 250
      · have he : Matching.extractSnippet text 250 = text := by
          unfold Matching.extractSnippet
          rw [if_neg ht, if_pos hlen]
        rw [he]
        omega
      · rw [extractSnippet_long text 250 ht hlen]
        have hsn : (text.take 250).length ≤ 250 := by
          rw [List.length_take]; exact min_le_left _ _
        have hell : Matching.ellipsis.length = 3 := by decide
        split
        · rw [List.length_append, hell]
          have : ((text.take 250).take
              (Matching.lastIndexOfChar (text.take 250) ' ').toNat).length
                ≤ (text.take 250).length := by
            rw [List.length_take]; exact min_le_right _ _
          omega
        · rw [List.length_append, hell]; omega
  · intro j h250 hj0 hj250 hsp hmax
    have ht : text ≠ [] := by
      intro h
      rw [h] at h250
      simp at h250
    have hnot : ¬ text.length ≤ 250 := by omega
    rw [extractSnippet_long text 250 ht hnot]
    have hj₂ : (text.take 250).get? j = some ' ' := by
      rw [List.get?_take hj250]; exact hsp
    have hmax₂ : ∀ i, i < (text.take 250).length → j < i → (text.take 250).get? i ≠ some ' ' := by
      intro i hi hji
      have hi250 : i < 250 := by
        rw [List.length_take] at hi
        omega
      rw [List.get?_take hi250]
      exact hmax i hi250 hji
    have hlast : Matching.lastIndexOfCharNat (text.take 250) ' ' = some j :=
      lastIdxNat_complete hj₂ hmax₂
    have hlastI : Matching.lastIndexOfChar (text.take 250) ' ' = (j : Int) := by
      unfold Matching.lastIndexOfChar
      rw [hlast]
    rw [hlastI, if_pos (by exact_mod_cast hj0), Int.toNat_natCast, List.take_take]
    have : min j 250 = j := min_eq_left (Nat.le_of_lt hj250)
    rw [this]
  · intro h250 hnosp
    have ht : text ≠ [] := by
      intro h
      rw [h] at h250
      simp at h250
    have hnot : ¬ text.length ≤ 250 := by omega
    rw [extractSnippet_long text 250 ht hnot]
    cases hlast : Matching.lastIndexOfCharNat (text.take 250) ' ' with
    | none =>
      rw [if_neg]
      unfold Matching.lastIndexOfChar
      rw [hlast]
      decide
    | some k =>
      obtain ⟨hk1, hk2, -⟩ := lastIdxNat_some hlast
      have hk250 : k < 250 := by
        rw [List.length_take] at hk1
        omega
      have htxt : text.get? k = some ' ' := by
        rw [← List.get?_take hk250]; exact hk2
      have hk0 : k = 0 := by
        by_contra h0
        exact hnosp k hk250 (Nat.pos_of_ne_zero h0) htxt
      subst hk0
      rw [if_neg]
      unfold Matching.lastIndexOfChar
      rw [hlast]
      decide

set_option maxRecDepth 8000 in
/-- Counterexample for C8 as stated: a text whose only space sits at index 0
has a space before the cut, yet the source takes the hard-cut branch rather
than cutting at that word boundary. -/
theorem c8_counterexample :
    250 < txtSpaceAtZero.length ∧
    (' ' ∈ txtSpaceAtZero.take 250) ∧
    Matching.extractSnippet txtSpaceAtZero 250
      = txtSpaceAtZero.take 250 ++ Matching.ellipsis ∧
    Matching.extractSnippet txtSpaceAtZero 250 ≠
      txtSpaceAtZero.take (Matching.lastIndexOfChar (txtSpaceAtZero.take 250) ' ').toNat
        ++ Matching.ellipsis := by
  refine ⟨by decide, by decide, by decide, by decide⟩

set_option maxRecDepth 8000 in
/-- Witness for C8 (amended): an over-long text with its last space at index
2 is cut there, on the word boundary, with the ellipsis appended. -/
theorem c8_witness : Matching.extractSnippet txtSpaceAtTwo 250 = "ab...".toList := by
  have h := (c8_amended_snippet txtSpaceAtTwo).2.2.1 2 (by decide) (by decide) (by decide)
    (by decide) (by decide)
  rw [h]
  decide

/-- C7 (amended): with normalization applied in the source's order —
lowercase, strip one trailing slash, then strip the query string, then strip
the scheme and `www.` (so a URL carrying both a trailing slash and a query
string keeps its slash) — if some requested URL normalizes equal to the raw
URL, matching returns an original requested URL that normalizes equal (never
the normalized form); if none normalizes equal, no match is returned. -/
theorem c7_amended_url_matching (profileUrl : JStr) (requestedUrls : List JStr) :
    ((∃ r ∈ requestedUrls,
        Apify.normalizeLinkedInUrl r = Apify.normalizeLinkedInUrl profileUrl) →
      ∃ r, Apify.findMatchingProfileUrl profileUrl requestedUrls = some r ∧
        r ∈ requestedUrls ∧
        Apify.normalizeLinkedInUrl r = Apify.normalizeLinkedInUrl profileUrl) ∧
    ((∀ r ∈ requestedUrls,
        Apify.normalizeLinkedInUrl r ≠ Apify.normalizeLinkedInUrl profileUrl) →
      Apify.findMatchingProfileUrl profileUrl requestedUrls = none) := by
  constructor
  · rintro ⟨r, hr, hnorm⟩
    cases hf : Apify.findMatchingProfileUrl profileUrl requestedUrls with
    | none =>
      unfold Apify.findMatchingProfileUrl at hf
      have hn := List.find?_eq_none.mp hf r hr
      simp only [decide_eq_true_eq] at hn
      exact absurd hnorm.symm hn
    | some r₂ =>
      refine ⟨r₂, rfl, List.mem_of_find?_eq_some hf, ?_⟩
      have hp := List.find?_some hf
      simp only [decide_eq_true_eq] at hp
      exact hp.symm
  · intro hall
    unfold Apify.findMatchingProfileUrl
    apply List.find?_eq_none.mpr
    intro r hr
    simp only [decide_eq_true_eq]
    exact fun h => (hall r hr) h.symm

/-- Counterexample for C7 as stated: under the spec's listed normalization
order (query string stripped before the trailing slash) the raw URL
`…/jane-doe/?utm=x` and the requested URL `…/jane-doe` normalize equal, yet
the source — which strips the slash before the query — returns no match. -/
theorem c7_counterexample :
    Apify.specNormalizeLinkedInUrl "https://www.linkedin.com/in/jane-doe/?utm=x".toList
      = Apify.specNormalizeLinkedInUrl "https://linkedin.com/in/jane-doe".toList ∧
    Apify.findMatchingProfileUrl "https://www.linkedin.com/in/jane-doe/?utm=x".toList
      ["https://linkedin.com/in/jane-doe".toList] = none := by
  refine ⟨by decide, by decide⟩

/-- Witness for C7 (amended): a raw URL differing from the requested URL in
case, scheme, query string and trailing slash still matches, and the original
requested URL is returned. -/
theorem c7_witness :
    Apify.findMatchingProfileUrl "https://www.linkedin.com/in/jane-doe/".toList
      ["http://linkedin.com/in/Jane-Doe?x=1".toList]
      = some "http://linkedin.com/in/Jane-Doe?x=1".toList := by
  obtain ⟨r, hf, hmem, -⟩ :=
    (c7_amended_url_matching "https://www.linkedin.com/in/jane-doe/".toList
      ["http://linkedin.com/in/Jane-Doe?x=1".toList]).1
      ⟨"http://linkedin.com/in/Jane-Doe?x=1".toList, by decide, by decide⟩
  rw [List.mem_singleton] at hmem
  rw [hmem] at hf
  exact hf

/-- Counterexample for C4 as stated: two records whose URLs differ only by a
trailing space have distinct normalized URLs under the claim's listed
operations (strip query, strip trailing slash, lowercase), so the claim says
they remain distinct — yet the source's dedup key applies a final `.trim()`
and merges them into a single Engager. -/
theorem c4_counterexample :
    Engagers.specNormalizeEngagerUrl engLike.linkedin_url
      ≠ Engagers.specNormalizeEngagerUrl engSamSpace.linkedin_url ∧
    Engagers.normalizeEngagerUrl engLike.linkedin_url
      = Engagers.normalizeEngagerUrl engSamSpace.linkedin_url ∧
    (Engagers.deduplicateEngagers [engLike, engSamSpace]).length = 1 := by
  refine ⟨by decide, by decide, by decide⟩

/-- C4 (amended): when two engagement records normalize to the same dedup
key under the source's operations — query string stripped, one trailing
slash stripped, lowercased, and trimmed of surrounding whitespace —
deduplication produces a single Engager keeping the first record's URL,
whose reaction type is the comma-join of a duplicate-free union of the two
labels and whose comment text is filled in from the second record only when
the first carries none; records with distinct trim-inclusive keys remain
distinct entries. -/
theorem c4_dedup_merges_equal_keys (e1 e2 : Engagers.Engager)
    (h1 : e1.linkedin_url ≠ []) (h2 : e2.linkedin_url ≠ [])
    (ha1 : Engagers.splitStr (Engagers.reactionOrUnknown e1.reaction_type) Engagers.commaSp
      = [Engagers.reactionOrUnknown e1.reaction_type]) :
    (Engagers.normalizeEngagerUrl e1.linkedin_url
        = Engagers.normalizeEngagerUrl e2.linkedin_url →
      ∃ labels : List JStr, labels.Nodup ∧
        labels = (if Engagers.reactionOrUnknown e2.reaction_type
              = Engagers.reactionOrUnknown e1.reaction_type then
            [Engagers.reactionOrUnknown e1.reaction_type]
          else
            [Engagers.reactionOrUnknown e1.reaction_type,
              Engagers.reactionOrUnknown e2.reaction_type]) ∧
        Engagers.deduplicateEngagers [e1, e2]
          = [{ linkedin_url := e1.linkedin_url,
               reaction_type := List.intercalate Engagers.commaSp labels,
               comment_text :=
                 if Engagers.ctTruthy e2.comment_text && !Engagers.ctTruthy e1.comment_text then
                   e2.comment_text
                 else e1.comment_text }]) ∧
    (Engagers.normalizeEngagerUrl e1.linkedin_url
        ≠ Engagers.normalizeEngagerUrl e2.linkedin_url →
      Engagers.deduplicateEngagers [e1, e2]
        = [{ e1 with reaction_type := Engagers.reactionOrUnknown e1.reaction_type },
           { e2 with reaction_type := Engagers.reactionOrUnknown e2.reaction_type }]) := by
  have hmap : Engagers.deduplicateEngagers [e1, e2]
      = ((Engagers.dedupStep (Engagers.dedupStep [] e1) e2).map fun kv => kv.2) := rfl
  have s1 := dedupStep_nil e1 h1
  constructor
  · intro hk
    have hfound : Engagers.lookupAssoc
        [(Engagers.normalizeEngagerUrl e1.linkedin_url,
          { e1 with reaction_type := Engagers.reactionOrUnknown e1.reaction_type })]
        (Engagers.normalizeEngagerUrl e2.linkedin_url)
        = some { e1 with reaction_type := Engagers.reactionOrUnknown e1.reaction_type } := by
      unfold Engagers.lookupAssoc
      rw [← hk]
      simp [List.find?]
    have s2 := dedupStep_found _ e2 _ h2 hfound
    have hupd : ∀ v : Engagers.Engager,
        Engagers.updateAssoc (Engagers.normalizeEngagerUrl e2.linkedin_url) v
          [(Engagers.normalizeEngagerUrl e1.linkedin_url,
            { e1 with reaction_type := Engagers.reactionOrUnknown e1.reaction_type })]
        = [(Engagers.normalizeEngagerUrl e1.linkedin_url, v)] := by
      intro v
      unfold Engagers.updateAssoc
      rw [if_pos hk]
    have hcore : Engagers.deduplicateEngagers [e1, e2]
        = [(let existingTypes :=
              Engagers.splitStr (Engagers.reactionOrUnknown e1.reaction_type) Engagers.commaSp
            let newType := Engagers.reactionOrUnknown e2.reaction_type
            let ex₂ :=
              if newType ∈ existingTypes then
                { e1 with reaction_type := Engagers.reactionOrUnknown e1.reaction_type }
              else { e1 with
                      reaction_type :=
                        List.intercalate Engagers.commaSp (existingTypes ++ [newType]) }
            if Engagers.ctTruthy e2.comment_text && !Engagers.ctTruthy e1.comment_text then
              { ex₂ with comment_text := e2.comment_text }
            else ex₂)] := by
      rw [hmap, s1, s2]
      simp only [reactionOrUnknown_idem]
      rw [hupd]
      rfl
    rw [ha1] at hcore
    by_cases heq : Engagers.reactionOrUnknown e2.reaction_type
        = Engagers.reactionOrUnknown e1.reaction_type
    · refine ⟨[Engagers.reactionOrUnknown e1.reaction_type], List.nodup_singleton _,
        by rw [if_pos heq], ?_⟩
      rw [hcore, intercalate_single]
      simp only [List.mem_singleton, heq, if_pos]
      split <;> simp
    · refine ⟨[Engagers.reactionOrUnknown e1.reaction_type,
          Engagers.reactionOrUnknown e2.reaction_type], ?_, by rw [if_neg heq], ?_⟩
      · refine List.nodup_cons.mpr ⟨?_, List.nodup_singleton _⟩
        rw [List.mem_singleton]
        exact fun h => heq h.symm
      · rw [hcore]
        simp only [List.mem_singleton, heq, if_neg, List.singleton_append, intercalate_pair]
        split <;> simp
  · intro hk
    have hnone : Engagers.lookupAssoc
        [(Engagers.normalizeEngagerUrl e1.linkedin_url,
          { e1 with reaction_type := Engagers.reactionOrUnknown e1.reaction_type })]
        (Engagers.normalizeEngagerUrl e2.linkedin_url) = none := by
      unfold Engagers.lookupAssoc
      simp [List.find?, hk]
    have s2 := dedupStep_fresh _ e2 h2 hnone
    rw [hmap, s1, s2]
    rfl

/-- Witness for C4 (amended): the spec scenario — the same person liking and
commenting, with URLs differing only by case and a trailing slash — merges
into one Engager with `reaction_type = "Like, Comment"` and the comment text
filled in. -/
theorem c4_witness :
    Engagers.deduplicateEngagers [engLike, engComment]
      = [{ linkedin_url := "https://x.com/in/sam".toList,
           reaction_type := "Like, Comment".toList,
           comment_text := some "Nice!".toList }] := by
  obtain ⟨labels, -, hlab, hded⟩ :=
    (c4_dedup_merges_equal_keys engLike engComment (by decide) (by decide) (by decide)).1
      (by decide)
  rw [hded, hlab]
  decide

/-- C6: for a company URL of the canonical form
`pre ++ "/company/" ++ seg` (with or without a trailing slash, `seg` a single
non-empty path component), the slug test selects it for company enrichment
exactly when the segment is not a bare numeric identifier; `enrichProfile`
sets `needsCompanyEnrichment` to precisely that test on the extracted company
URL; and every URL submitted to company enrichment comes from a profile
flagged `needsCompanyEnrichment = true` with that company URL. -/
theorem c6_company_slug_selection (pre seg : JStr)
    (pds : List Engagers.EnrichAttempt) (url : JStr)
    (profile : Engagers.RawProfile) (profileUrl : JStr)
    (hseg : seg ≠ []) (hslash : '/' ∉ seg) :
    (Engagers.hasValidCompanyUrl (pre ++ Engagers.companySeg ++ seg)
      = !seg.all Char.isDigit) ∧
    (Engagers.hasValidCompanyUrl (pre ++ Engagers.companySeg ++ seg ++ ['/'])
      = !seg.all Char.isDigit) ∧
    ((Engagers.buildProfileData profile profileUrl).needsCompanyEnrichment
      = Engagers.hasValidCompanyUrl
          (Engagers.buildProfileData profile profileUrl).companyLinkedinUrl) ∧
    (url ∈ Engagers.extractUniqueCompanies pds →
      ∃ entry ∈ pds, ∃ pd, entry.profileData = some pd ∧
        pd.needsCompanyEnrichment = true ∧ pd.companyLinkedinUrl = url) := by
  refine ⟨?_, ?_, rfl, ?_⟩
  · unfold Engagers.hasValidCompanyUrl
    have hnn : decide ((pre ++ Engagers.companySeg ++ seg) ≠ []) = true := by
      simp [List.append_eq_nil, Engagers.companySeg]
    have hcv : containsSub (pre ++ Engagers.companySeg ++ seg) Engagers.companySeg = true :=
      containsSub_eq_true.mpr ⟨pre, seg, rfl⟩
    rw [hnn, hcv, numericCompanyEnd_slug pre seg hseg hslash]
    rfl
  · unfold Engagers.hasValidCompanyUrl
    have hnn : decide ((pre ++ Engagers.companySeg ++ seg ++ ['/']) ≠ []) = true := by
      simp [List.append_eq_nil, Engagers.companySeg]
    have hcv : containsSub (pre ++ Engagers.companySeg ++ seg ++ ['/'])
        Engagers.companySeg = true :=
      containsSub_eq_true.mpr ⟨pre, seg ++ ['/'], by simp⟩
    rw [hnn, hcv, numericCompanyEnd_slug_slash pre seg hseg hslash]
    rfl
  · intro hu
    rcases extractUnique_sound pds [] url hu with habs | hgood
    · exact absurd habs (List.not_mem_nil url)
    · exact hgood

/-- Witness for C6: the spec scenario — a company URL ending in
`/company/12345/` is not selected, one ending in `/company/acme-inc/` is —
and a concretely flagged profile is the source of its submitted company
URL. -/
theorem c6_witness :
    Engagers.hasValidCompanyUrl
        ("https://www.linkedin.com".toList ++ Engagers.companySeg ++ "12345".toList ++ ['/'])
      = false ∧
    Engagers.hasValidCompanyUrl
        ("https://www.linkedin.com".toList ++ Engagers.companySeg ++ "acme-inc".toList ++ ['/'])
      = true ∧
    ∃ entry ∈ [entryFlagged], ∃ pd, entry.profileData = some pd ∧
      pd.needsCompanyEnrichment = true ∧
      pd.companyLinkedinUrl = "https://www.linkedin.com/company/acme-inc/".toList := by
  have h₁ := (c6_company_slug_selection "https://www.linkedin.com".toList "12345".toList
    [entryFlagged] "https://www.linkedin.com/company/acme-inc/".toList rpEmpty []
    (by decide) (by decide)).2.1
  have h₂ := (c6_company_slug_selection "https://www.linkedin.com".toList "acme-inc".toList
    [entryFlagged] "https://www.linkedin.com/company/acme-inc/".toList rpEmpty []
    (by decide) (by decide)).2.1
  have h₃ := (c6_company_slug_selection "https://www.linkedin.com".toList "acme-inc".toList
    [entryFlagged] "https://www.linkedin.com/company/acme-inc/".toList rpEmpty []
    (by decide) (by decide)).2.2.2 (by decide)
  exact ⟨by rw [h₁]; decide, by rw [h₂]; decide, h₃⟩

/-- The batched, all-settled profile-enrichment phase keeps one entry per
engager, in order: `apify.enrichProfile` never throws, so the success filter
keeps everything. -/
theorem profileEnrichmentPhase_eq_map (pfetch : JStr → Except Unit (List Engagers.RawProfile))
    (l : List Engagers.Engager) :
    Engagers.profileEnrichmentPhase pfetch l = l.map (Engagers.enrichOneEngager pfetch) := by
  unfold Engagers.profileEnrichmentPhase Engagers.chunkArray
  have hfil : ∀ batch : List Engagers.Engager,
      ((batch.map (Engagers.enrichOneEngager pfetch)).filter fun r => r.success)
        = batch.map (Engagers.enrichOneEngager pfetch) := by
    intro batch
    apply List.filter_eq_self.mpr
    intro a ha
    rcases List.mem_map.mp ha with ⟨e, -, rfl⟩
    rfl
  simp only [hfil]
  exact chunkArrayPos_flatMap_map _ 9 l.length l (Nat.le_refl _)

/-- C5: a failing per-engager enrichment call never fails the scan — the
pipeline completes for every per-engager fetch outcome, every sliced engager
yields exactly one combined record and counts toward the enriched total, and
an engager whose fetch failed appears as the fallback-degraded record (name
`Unknown`, empty profile and company fields, zero counts) with its engagement
data preserved. -/
theorem c5_per_engager_failure_isolated
    (pfetch : JStr → Except Unit (List Engagers.RawProfile))
    (companyLookup : JStr → Engagers.CompanyData)
    (allEngagers : List Engagers.Engager) (limitPerType : Nat) :
    (Engagers.scanPostEngagers (Except.ok allEngagers) pfetch companyLookup limitPerType
      = Except.ok (Engagers.scanFromUnique pfetch companyLookup
          (Engagers.deduplicateEngagers allEngagers) limitPerType)) ∧
    ((Engagers.scanFromUnique pfetch companyLookup
        (Engagers.deduplicateEngagers allEngagers) limitPerType).engagers.length
      = ((Engagers.deduplicateEngagers allEngagers).take limitPerType).length) ∧
    ((Engagers.scanFromUnique pfetch companyLookup
        (Engagers.deduplicateEngagers allEngagers) limitPerType).profilesEnriched
      = ((Engagers.deduplicateEngagers allEngagers).take limitPerType).length) ∧
    (∀ e ∈ (Engagers.deduplicateEngagers allEngagers).take limitPerType,
      pfetch e.linkedin_url = Except.error () →
      ({ name := "Unknown".toList, job_title := [], location := [],
         linkedin_url := e.linkedin_url, total_connections := 0, follower_count := 0,
         company_name := [], industry := [], employee_size := [], company_location := [],
         company_profile_url := [], reaction_type := e.reaction_type,
         comment_text := Engagers.jsOrNull e.comment_text } : Engagers.CRecord)
        ∈ (Engagers.scanFromUnique pfetch companyLookup
            (Engagers.deduplicateEngagers allEngagers) limitPerType).engagers) := by
  have hphase := profileEnrichmentPhase_eq_map pfetch
    ((Engagers.deduplicateEngagers allEngagers).take limitPerType)
  refine ⟨rfl, ?_, ?_, ?_⟩
  · unfold Engagers.scanFromUnique
    simp only [hphase, List.length_map]
  · unfold Engagers.scanFromUnique
    simp only [hphase, List.length_map]
  · intro e he hfail
    unfold Engagers.scanFromUnique
    simp only [hphase]
    apply List.mem_map.mpr
    refine ⟨Engagers.enrichOneEngager pfetch e, List.mem_map.mpr ⟨e, he, rfl⟩, ?_⟩
    unfold Engagers.enrichOneEngager Engagers.enrichProfile
    rw [hfail]
    unfold Engagers.combineRecord
    simp [Engagers.fallbackProfileData, Engagers.optField, Engagers.defaultCompanyData,
      jsOr_self, jsOr]

/-- Witness for C5: with an upstream that fails every profile fetch, the scan
still completes with one combined, degraded record for the single engager,
which counts toward the enriched total. -/
theorem c5_witness :
    ({ name := "Unknown".toList, job_title := [], location := [],
       linkedin_url := engLike.linkedin_url, total_connections := 0, follower_count := 0,
       company_name := [], industry := [], employee_size := [], company_location := [],
       company_profile_url := [], reaction_type := engLike.reaction_type,
       comment_text := none } : Engagers.CRecord)
      ∈ (Engagers.scanFromUnique pfetchFail clFallback
          (Engagers.deduplicateEngagers [engLike]) 10).engagers ∧
    (Engagers.scanFromUnique pfetchFail clFallback
        (Engagers.deduplicateEngagers [engLike]) 10).profilesEnriched = 1 := by
  have h := c5_per_engager_failure_isolated pfetchFail clFallback [engLike] 10
  refine ⟨?_, ?_⟩
  · have hmem := h.2.2.2 engLike (by decide) rfl
    simpa using hmem
  · rw [h.2.2.1]
    decide

/-- Doubling the quotes inside a value doubles its quote count. -/
theorem count_quote_doubling (v : JStr) :
    (v.flatMap (fun c => if c = '"' then ['"', '"'] else [c])).count '"'
      = 2 * v.count '"' := by
  induction v with
  | nil => rfl
  | cons c rest ih =>
    rw [List.flatMap_cons, List.count_append, ih]
    by_cases hc : c = '"'
    · rw [if_pos hc]
      have h2 : List.count '"' ['"', '"'] = 2 := by decide
      rw [h2, List.count_cons, hc]
      simp
      omega
    · rw [if_neg hc]
      have h0 : List.count '"' [c] = 0 := by
        rw [List.count_singleton, if_neg (by simpa using hc)]
      rw [h0, List.count_cons, if_neg (by simpa using hc)]
      omega

/-- C9 (amended): the CSV export is the fixed 12-column header line followed
by exactly one 12-cell line per record in input order; every value routed
through the escaper that contains a comma, quote or newline comes back
wrapped in double quotes (first and last character) with internal quotes
doubled, and values without those characters pass through unchanged; the two
URL columns (positions 4 and 10) are emitted raw, bypassing the escaper. -/
theorem c9_amended_csv (recs : List Engagers.CRecord) (v w : JStr)
    (hv : v ≠ []) (hspec : (',' ∈ v) ∨ ('"' ∈ v) ∨ ('\n' ∈ v))
    (hw : ¬ ((',' ∈ w) ∨ ('"' ∈ w) ∨ ('\n' ∈ w))) :
    Engagers.generateCSV recs
      = List.intercalate ['\n']
          ((List.intercalate [','] Engagers.csvHeaders)
            :: recs.map (fun e => List.intercalate [','] (Engagers.csvRow e))) ∧
    (recs.map (fun e => List.intercalate [','] (Engagers.csvRow e))).length = recs.length ∧
    (∀ e : Engagers.CRecord, (Engagers.csvRow e).length = 12) ∧
    (∀ e : Engagers.CRecord, (Engagers.csvRow e).get? 4 = some e.linkedin_url ∧
      (Engagers.csvRow e).get? 10 = some e.company_profile_url) ∧
    (Engagers.escapeCsvValue v).head? = some '"' ∧
    (Engagers.escapeCsvValue v).getLast? = some '"' ∧
    (Engagers.escapeCsvValue v).count '"' = 2 + 2 * v.count '"' ∧
    Engagers.escapeCsvValue w = w := by
  have hesc : Engagers.escapeCsvValue v
      = '"' :: (v.flatMap (fun c => if c = '"' then ['"', '"'] else [c])) ++ ['"'] := by
    unfold Engagers.escapeCsvValue
    rw [if_neg hv, if_pos hspec]
  refine ⟨rfl, List.length_map _ _, fun e => rfl, fun e => ⟨rfl, rfl⟩, ?_, ?_, ?_, ?_⟩
  · rw [hesc]
    rfl
  · rw [hesc]
    rw [show ('"' :: (v.flatMap fun c => if c = '"' then ['"', '"'] else [c]) ++ ['"'])
        = ('"' :: (v.flatMap fun c => if c = '"' then ['"', '"'] else [c])) ++ ['"'] from rfl]
    exact List.getLast?_concat _
  · rw [hesc, List.count_append, List.count_cons, count_quote_doubling]
    have h1 : List.count '"' ['"'] = 1 := by decide
    rw [h1]
    simp
    omega
  · unfold Engagers.escapeCsvValue
    by_cases hw0 : w = []
    · rw [if_pos hw0, hw0]
    · rw [if_neg hw0, if_neg hw]

/-- Counterexample for C9 as stated: a record whose profile URL contains a
comma is emitted raw — the URL cell is not the escaped form, and the record's
CSV line splits into 13 comma-separated cells instead of 12. -/
theorem c9_counterexample :
    (',' ∈ recCommaUrl.linkedin_url) ∧
    (Engagers.csvRow recCommaUrl).get? 4 = some recCommaUrl.linkedin_url ∧
    Engagers.escapeCsvValue recCommaUrl.linkedin_url ≠ recCommaUrl.linkedin_url ∧
    (Engagers.splitStr (List.intercalate [','] (Engagers.csvRow recCommaUrl)) [',']).length
      = 13 := by
  refine ⟨by decide, rfl, by decide, by decide⟩

/-- Witness for C9 (amended): a value containing a quote is escaped with its
quotes doubled inside the added wrapping pair, a plain value passes through
unchanged, and a record's row has exactly 12 cells. -/
theorem c9_witness :
    (Engagers.escapeCsvValue "a\"b".toList).count '"' = 4 ∧
    Engagers.escapeCsvValue "plain".toList = "plain".toList ∧
    (Engagers.csvRow recCommaUrl).length = 12 := by
  have h := c9_amended_csv [recCommaUrl] "a\"b".toList "plain".toList
    (by decide) (by decide) (by decide)
  refine ⟨?_, h.2.2.2.2.2.2.2, h.2.2.1 recCommaUrl⟩
  rw [h.2.2.2.2.2.2.1]
  decide

end SignalMonitor
